import Mathlib

/-!
# Verification of the cudf Parquet page-encoding pipeline

Shallow embedding of `cpp/src/io/parquet/page_enc.cu` (page planner, RLE
encoder, INT96 conversion, statistics/header encoder, compression decision,
page gathering, and the dremel rep/def level builder), with theorems checking
the natural-language specification against the code.

GPU kernels are embedded as sequential functions: a thread-block cooperating
on one page/chunk becomes a fold over that page's/chunk's data, warp ballots
become explicit scans over the corresponding index window, and raw output
pointers become append-only byte lists (`List ℕ`, each element a byte value).
-/

namespace PageEnc

/-! ## Byte-level helpers shared by several kernels -/

/-- Little-endian base-256 bytes of `v`, exactly `n` bytes (the
`dst[pos + i] = v >> (8*i)` stores used throughout `gpuEncodePages`). -/
def leBytes : ℕ → ℕ → List ℕ
  | 0, _ => []
  | n + 1, v => v % 256 :: leBytes n (v / 256)

/-- Fuel-driven worker for the unsigned LEB128 loop shared by `VlqEncode`,
`cpw_put_uint32` and `cpw_put_uint64` in page_enc.cu: while `v > 0x7f` emit
`(v | 0x80)` (as a byte) and shift `v` right by 7; then emit `v`. -/
def vlqAux : ℕ → ℕ → List ℕ
  | 0, v => [v % 0x80]
  | f + 1, v => if v ≤ 0x7f then [v] else (v % 0x80 + 0x80) :: vlqAux f (v / 0x80)

/-- `VlqEncode` (page_enc.cu lines 456-464): variable-length encode an
unsigned integer.  `v` itself is always sufficient fuel for the loop. -/
def VlqEncode (v : ℕ) : List ℕ := vlqAux v v

/-- `cpw_put_uint32` (page_enc.cu lines 1163-1171); the loop body is
identical to `VlqEncode`. -/
def cpw_put_uint32 (v : ℕ) : List ℕ := vlqAux v v

/-- `cpw_put_uint64` (page_enc.cu lines 1173-1181); same loop at 64 bits. -/
def cpw_put_uint64 (v : ℕ) : List ℕ := vlqAux v v

/-- Zigzag mapping used by `cpw_put_int32`/`cpw_put_int64`:
`s = (v < 0); (v ^ -s) * 2 + s` over two's complement equals
`2*v` for `v ≥ 0` and `2*(-1-v)+1` for `v < 0`. -/
def zigzag (v : ℤ) : ℕ := if v < 0 then (2 * (-1 - v) + 1).toNat else (2 * v).toNat

/-- `cpw_put_int32` (page_enc.cu lines 1183-1187). -/
def cpw_put_int32 (v : ℤ) : List ℕ := cpw_put_uint32 (zigzag v)

/-- `cpw_put_int64` (page_enc.cu lines 1189-1193). -/
def cpw_put_int64 (v : ℤ) : List ℕ := cpw_put_uint64 (zigzag v)

/-! ## C2: adaptive page-size ceiling in gpuInitPages -/

/-- The adaptive page-size ceiling from `gpuInitPages`
(page_enc.cu lines 339-344):

    size_t this_max_page_size = (values_in_page * 2 >= ck_g.num_values)   ? 256 * 1024
                                : (values_in_page * 3 >= ck_g.num_values) ? 384 * 1024
                                                                          : 512 * 1024;
    this_max_page_size = min(this_max_page_size, max_page_size_bytes);
-/
def this_max_page_size (values_in_page num_values max_page_size_bytes : ℕ) : ℕ :=
  min (if values_in_page * 2 ≥ num_values then 256 * 1024
       else if values_in_page * 3 ≥ num_values then 384 * 1024
       else 512 * 1024)
    max_page_size_bytes

/-! ## C6: gpuDecideCompression -/

/-- Per-page compression status as read by `gpuDecideCompression`
(`decompress_status`): bytes written by the codec and a status code
(0 = success). -/
structure CompStat where
  bytes_written : ℕ
  status : ℕ
deriving DecidableEq, Repr

/-- The fields of one `EncPage` read by `gpuDecideCompression`:
`max_data_size` (uncompressed data size at this stage) and the optional
`comp_stat` pointer (`none` models `nullptr`, i.e. compression was not
attempted for this page). -/
structure PageCompView where
  max_data_size : ℕ
  comp_stat : Option CompStat
deriving DecidableEq, Repr

/-- Result fields of `gpuDecideCompression` for one chunk. -/
structure CompressionDecision where
  is_compressed : Bool
  bfr_size : ℕ
  compressed_size : ℕ
deriving DecidableEq, Repr

/-- `gpuDecideCompression` (page_enc.cu lines 1108-1158) for one column
chunk.  The warp loop accumulating over `ck_g.pages` becomes a fold over the
chunk's page list: `uncompressed_data_size` sums `max_data_size`,
`compressed_data_size` sums `bytes_written` over pages with a status,
`has_compression` records whether any page carries a status, and
`error_count` counts pages whose status is nonzero.  The kernel runs one
block per chunk, so the decision for a chunk depends only on that chunk's
own pages. -/
def gpuDecideCompression (pages : List PageCompView) : CompressionDecision :=
  let uncompressed_data_size : ℕ := (pages.map (·.max_data_size)).sum
  let compressed_data_size : ℕ :=
    (pages.map fun p => match p.comp_stat with
      | some st => st.bytes_written
      | none => 0).sum
  let has_compression := pages.any fun p => p.comp_stat.isSome
  let error_count :=
    (pages.filter fun p => match p.comp_stat with
      | some st => decide (st.status ≠ 0)
      | none => false).length
  let is_compressed :=
    if has_compression then decide (error_count = 0) && decide (compressed_data_size < uncompressed_data_size)
    else false
  { is_compressed := is_compressed
    bfr_size := uncompressed_data_size
    compressed_size := if is_compressed then compressed_data_size else uncompressed_data_size }

end PageEnc

namespace PageEnc

/-- C2 counterexample: with 1 of 3 values placed (below 50% of the chunk's
value count) and a large caller limit, the code already shrinks the ceiling
to 384 KiB, so the ceiling is not "the default 512 KiB until the values
placed pass 50%" as the claim states. -/
theorem C2_counterexample :
    1 * 2 < 3 ∧ this_max_page_size 1 3 (2 ^ 30) ≠ 512 * 1024 := by decide

/-- C2 (amended): the effective page-size ceiling in `gpuInitPages` is
512 KiB until the values placed in the chunk reach one third of the chunk's
total value count, 384 KiB from one third up to (but excluding) one half,
and 256 KiB from one half on; in every case the caller's
`max_page_size_bytes`, if smaller, is the ceiling actually used. -/
theorem C2_adaptive_page_size_limit (v n m : ℕ) :
    (n ≤ 2 * v → this_max_page_size v n m = min (256 * 1024) m) ∧
    (n ≤ 3 * v → 2 * v < n → this_max_page_size v n m = min (384 * 1024) m) ∧
    (3 * v < n → this_max_page_size v n m = min (512 * 1024) m) ∧
    this_max_page_size v n m ≤ m := by
  refine ⟨fun h => ?_, fun h h2 => ?_, fun h => ?_, ?_⟩
  · rw [this_max_page_size, if_pos (by omega)]
  · rw [this_max_page_size, if_neg (by omega), if_pos (by omega)]
  · rw [this_max_page_size, if_neg (by omega), if_neg (by omega)]
  · exact min_le_right _ _

/-- Witness for `C2_adaptive_page_size_limit` at `v = 1`, `n = 3`,
`m = 2^20`: one of three values placed is past one third, so the ceiling is
384 KiB (capped by the 1 MiB caller limit). -/
theorem C2_adaptive_page_size_limit_witness :
    3 ≤ 3 * 1 ∧ 2 * 1 < 3 ∧
      this_max_page_size 1 3 (2 ^ 20) = min (384 * 1024) (2 ^ 20) :=
  ⟨by decide, by decide,
    (C2_adaptive_page_size_limit 1 3 (2 ^ 20)).2.1 (by decide) (by decide)⟩

/-! ## C9: header_encoder and EncodeStatistics -/

/-- Thrift compact-protocol field-type codes used by the header encoder
(`ST_FLD_*`; declared in the parquet common header outside the excerpted
sources, values fixed by the Thrift compact protocol). -/
def ST_FLD_I32 : ℕ := 5

/-- Thrift compact type code for i64 fields. -/
def ST_FLD_I64 : ℕ := 6

/-- Thrift compact type code for binary fields. -/
def ST_FLD_BINARY : ℕ := 8

/-- Thrift compact type code for struct fields. -/
def ST_FLD_STRUCT : ℕ := 12

/-- `cpw_put_fldh` (page_enc.cu lines 1195-1204): short-form field header
`((f - cur) << 4) | t` when the field-id delta fits in 4 bits, else the bare
type byte followed by the zigzag-encoded absolute field id. -/
def cpw_put_fldh (f cur t : ℕ) : List ℕ :=
  if f > cur ∧ f ≤ cur + 15 then [(f - cur) * 16 + t]
  else t :: cpw_put_int32 (f : ℤ)

/-- State of the `header_encoder` class (page_enc.cu lines 1206-1264): the
bytes written so far (the cursor `current_header_ptr` is their length) and
`current_field_index`. -/
structure HeaderEnc where
  bytes : List ℕ
  fld : ℕ
deriving Repr

/-- `header_encoder::field_int32`. -/
def field_int32 (e : HeaderEnc) (field : ℕ) (value : ℤ) : HeaderEnc :=
  { bytes := e.bytes ++ cpw_put_fldh field e.fld ST_FLD_I32 ++ cpw_put_int32 value
    fld := field }

/-- `header_encoder::field_int64`. -/
def field_int64 (e : HeaderEnc) (field : ℕ) (value : ℤ) : HeaderEnc :=
  { bytes := e.bytes ++ cpw_put_fldh field e.fld ST_FLD_I64 ++ cpw_put_int64 value
    fld := field }

/-- `header_encoder::field_binary`: field header, varint byte length, then
`length` bytes copied from the value pointer. -/
def field_binary (e : HeaderEnc) (field : ℕ) (value : List ℕ) (length : ℕ) : HeaderEnc :=
  { bytes := e.bytes ++ cpw_put_fldh field e.fld ST_FLD_BINARY ++
      cpw_put_uint32 length ++ value.take length
    fld := field }

/-- The statistics dtypes distinguished by `EncodeStatistics`
(page_enc.cu lines 1271-1286). -/
inductive StatsDtype where
  | dbool | dint8 | dint16 | dint32 | ddate32 | dfloat32
  | dint64 | dtimestamp64 | dfloat64 | ddecimal64 | ddecimal128 | dstring
deriving DecidableEq, Repr

/-- `dtype_len` switch at the top of `EncodeStatistics`. -/
def statsDtypeLen : StatsDtype → ℕ
  | .dbool => 1
  | .dint8 | .dint16 | .dint32 | .ddate32 | .dfloat32 => 4
  | .dint64 | .dtimestamp64 | .dfloat64 | .ddecimal64 => 8
  | .ddecimal128 => 16
  | .dstring => 0

/-- One `statistics_val` union member as read by `EncodeStatistics`:
`scalar raw` is the in-memory little-endian byte image of the integer /
decimal / double member (read raw via `&s->min_value`), `fp raw64` is the
8-byte double accumulator that the float32 path narrows, and
`str len bytes` is `str_val`. -/
inductive StatVal where
  | scalar (raw : List ℕ)
  | fp (raw64 : List ℕ)
  | str (len : ℕ) (bytes : List ℕ)
deriving DecidableEq, Repr

/-- The fields of `statistics_chunk` read by `EncodeStatistics`. -/
structure StatsChunk where
  null_count : ℕ
  has_minmax : Bool
  min_value : StatVal
  max_value : StatVal
deriving Repr

/-- The (pointer, length) pair `EncodeStatistics` passes to `field_binary`
for one min/max value: the string member with its own length for
`dtype_string`; the double accumulator narrowed to a 4-byte float for
`dtype_float32` (`fp_scratch[i] = s->…_value.fp_val`, with `toF32`
standing for the CUDA double-to-float conversion, whose IEEE rounding is
outside this model); otherwise `dtype_len` raw bytes of the scalar union
member. -/
def statPayload (toF32 : List ℕ → List ℕ) (dtype : StatsDtype) (v : StatVal) : List ℕ × ℕ :=
  match dtype, v with
  | .dstring, .str len bytes => (bytes, len)
  | .dfloat32, .fp raw64 => (toF32 raw64, 4)
  | dt, .scalar raw => (raw, statsDtypeLen dt)
  | dt, _ => ([], statsDtypeLen dt)

/-- `EncodeStatistics` (page_enc.cu lines 1266-1315): always emits
`null_count` as i64 field 3; when `has_minmax` is set, emits max as binary
field 5 and then min as binary field 6; ends without a terminating byte
(`termination_flag` defaults to true). -/
def EncodeStatistics (toF32 : List ℕ → List ℕ) (s : StatsChunk) (dtype : StatsDtype) :
    List ℕ :=
  let e1 := field_int64 ⟨[], 0⟩ 3 (s.null_count : ℤ)
  if s.has_minmax then
    let pmax := statPayload toF32 dtype s.max_value
    let pmin := statPayload toF32 dtype s.min_value
    let e2 := field_binary e1 5 pmax.1 pmax.2
    let e3 := field_binary e2 6 pmin.1 pmin.2
    e3.bytes
  else e1.bytes

/-! ## C8: INT96 conversion -/

/-- Proleptic-Gregorian civil-date to epoch-day count, as computed by the
`cuda::std::chrono` calendar (`sys_days{year/month/day}`); this is the
standard `days_from_civil` algorithm, with C++ truncating division written
as `Int.div`.  It is the calendar arithmetic that
`julian_calendar_epoch_diff` delegates to (the chrono library itself is an
external dependency of page_enc.cu). -/
def days_from_civil (y m d : ℤ) : ℤ :=
  let yAdj := if m ≤ 2 then y - 1 else y
  let era := Int.tdiv (if 0 ≤ yAdj then yAdj else yAdj - 399) 400
  let yoe := yAdj - era * 400
  let doy := Int.tdiv (153 * (m + (if m > 2 then -3 else 9)) + 2) 5 + d - 1
  let doe := yoe * 365 + Int.tdiv yoe 4 - Int.tdiv yoe 100 + doy
  era * 146097 + doe - 719468

/-- `julian_calendar_epoch_diff` (page_enc.cu lines 728-733): the duration
`sys_days{January/1/1970} - (sys_days{November/24/ -4713} + 12h)`, in hours. -/
def julian_calendar_epoch_diff : ℤ :=
  24 * days_from_civil 1970 1 1 - (24 * days_from_civil (-4713) 11 24 + 12)

/-- `cuda::std::chrono::ceil<days>` applied to a duration in hours. -/
def ceilHoursToDays (h : ℤ) : ℤ := -(Int.fdiv (-h) 24)

/-- Nanoseconds per day. -/
def nsPerDay : ℤ := 86400000000000

/-- `convert_nanoseconds` (page_enc.cu lines 743-752): split a
nanosecond-since-epoch timestamp into (nanoseconds elapsed in the day,
days since the Julian epoch); `floor<days>` is flooring division. -/
def convert_nanoseconds (ns : ℤ) : ℤ × ℤ :=
  let gregorian_days := Int.fdiv ns nsPerDay
  let julian_days := gregorian_days + ceilHoursToDays julian_calendar_epoch_diff
  (ns - gregorian_days * nsPerDay, julian_days)

/-- The 12 bytes stored for one INT96 value by `gpuEncodePages`
(page_enc.cu lines 1044-1058): the little-endian int64 two's-complement
image of `ret.first.count()` followed by the little-endian int32 image of
`ret.second.count()`. -/
def int96Bytes (ns : ℤ) : List ℕ :=
  let ret := convert_nanoseconds ns
  leBytes 8 ((ret.1 % (2 ^ 64)).toNat) ++ leBytes 4 ((ret.2 % (2 ^ 32)).toNat)

/-- C9: `EncodeStatistics` always emits the `null_count` field (i64 field
id 3, short-form header byte `0x36`), and emits min/max only when
`has_minmax` is set — max as binary field 5 (header `0x28`) then min as
binary field 6 (header `0x18`) — as raw typed bytes whose length is the
fixed `dtype_len` (4/8/16 for numeric/decimal types) or the string's own
length for strings; the float32 payload is the double accumulator narrowed
to a 4-byte float. -/
theorem C9_encode_statistics (toF32 : List ℕ → List ℕ) (s : StatsChunk) (dtype : StatsDtype) :
    (EncodeStatistics toF32 s dtype =
      0x36 :: cpw_put_int64 (s.null_count : ℤ) ++
        (if s.has_minmax then
          0x28 :: (cpw_put_uint32 (statPayload toF32 dtype s.max_value).2 ++
            (statPayload toF32 dtype s.max_value).1.take (statPayload toF32 dtype s.max_value).2) ++
          (0x18 :: (cpw_put_uint32 (statPayload toF32 dtype s.min_value).2 ++
            (statPayload toF32 dtype s.min_value).1.take (statPayload toF32 dtype s.min_value).2))
        else [])) ∧
    (∀ raw64, statPayload toF32 .dfloat32 (.fp raw64) = (toF32 raw64, 4)) ∧
    (∀ n bs, statPayload toF32 .dstring (.str n bs) = (bs, n)) ∧
    (∀ raw, statPayload toF32 .dint32 (.scalar raw) = (raw, 4)) ∧
    (∀ raw, statPayload toF32 .dint64 (.scalar raw) = (raw, 8)) ∧
    (∀ raw, statPayload toF32 .ddecimal128 (.scalar raw) = (raw, 16)) := by
  refine ⟨?_, fun _ => rfl, fun _ _ => rfl, fun _ => rfl, fun _ => rfl, fun _ => rfl⟩
  cases hmm : s.has_minmax <;>
    simp [EncodeStatistics, field_int64, field_binary, cpw_put_fldh,
      ST_FLD_I64, ST_FLD_BINARY, hmm]

/-- C8: the 12 bytes written for an INT96 value are the little-endian
int64 image of the nanoseconds elapsed since midnight of the value's day
followed by the little-endian int32 image of the Julian-day count; the day
count is the flooring Gregorian day count since 1970-01-01 plus the epoch
difference to -4713-11-24 12:00 UTC, and that difference is obtained from
`julian_calendar_epoch_diff`'s calendar arithmetic (which evaluates to
58574100 hours, i.e. 2440588 days after `ceil<days>`), not from a
hardcoded constant. -/
theorem C8_int96_encoding (ns : ℤ) :
    int96Bytes ns =
      leBytes 8 (ns - Int.fdiv ns nsPerDay * nsPerDay).toNat ++
        leBytes 4 (((Int.fdiv ns nsPerDay + 2440588) % (2 ^ 32)).toNat) ∧
    0 ≤ ns - Int.fdiv ns nsPerDay * nsPerDay ∧
    ns - Int.fdiv ns nsPerDay * nsPerDay < nsPerDay ∧
    (convert_nanoseconds ns).2 =
      Int.fdiv ns nsPerDay + ceilHoursToDays julian_calendar_epoch_diff ∧
    ceilHoursToDays julian_calendar_epoch_diff = 2440588 ∧
    julian_calendar_epoch_diff =
      24 * (days_from_civil 1970 1 1 - days_from_civil (-4713) 11 24) - 12 := by
  have hfmod : ns - Int.fdiv ns nsPerDay * nsPerDay = Int.fmod ns nsPerDay := by
    rw [Int.fmod_def]; ring
  have hpos : (0 : ℤ) < nsPerDay := by decide
  have hnonneg : 0 ≤ ns - Int.fdiv ns nsPerDay * nsPerDay := by
    rw [hfmod]; exact Int.fmod_nonneg' ns hpos
  have hlt : ns - Int.fdiv ns nsPerDay * nsPerDay < nsPerDay := by
    rw [hfmod]; exact Int.fmod_lt_of_pos ns hpos
  refine ⟨?_, hnonneg, hlt, rfl, by decide, by decide⟩
  have hceil : ceilHoursToDays julian_calendar_epoch_diff = 2440588 := by decide
  simp only [int96Bytes, convert_nanoseconds, hceil]
  congr 2
  rw [Int.emod_eq_of_lt hnonneg (lt_trans hlt (by decide))]

/-- C6: `gpuDecideCompression` sets a chunk's `is_compressed` flag to true
exactly when compression was attempted for its pages (some page carries a
compression status), no page reported a nonzero status, and the summed
compressed size is strictly below the summed uncompressed size; in
particular any single page-level failure forces `is_compressed = false` for
the chunk.  The kernel runs one block per chunk and reads only that chunk's
pages, so the decision never affects other chunks. -/
theorem C6_decide_compression (pages : List PageCompView) :
    ((gpuDecideCompression pages).is_compressed = true ↔
      ((∃ p ∈ pages, p.comp_stat.isSome) ∧
        (∀ p ∈ pages, ∀ st, p.comp_stat = some st → st.status = 0) ∧
        (pages.map fun p => match p.comp_stat with
          | some st => st.bytes_written
          | none => 0).sum < (pages.map (·.max_data_size)).sum)) ∧
    (∀ p ∈ pages, ∀ st, p.comp_stat = some st → st.status ≠ 0 →
      (gpuDecideCompression pages).is_compressed = false) := by
  have herr : ((pages.filter fun p => match p.comp_stat with
      | some st => decide (st.status ≠ 0)
      | none => false).length = 0) ↔
      (∀ p ∈ pages, ∀ st, p.comp_stat = some st → st.status = 0) := by
    rw [List.length_eq_zero, List.filter_eq_nil_iff]
    constructor
    · intro h p hp st hst
      have := h p hp
      rw [hst] at this
      simpa using this
    · intro h p hp
      cases hcs : p.comp_stat with
      | none => simp
      | some st => simpa using h p hp st hcs
  constructor
  · simp only [gpuDecideCompression]
    constructor
    · intro h
      by_cases hc : pages.any (fun p => p.comp_stat.isSome) = true
      · rw [if_pos hc] at h
        simp only [Bool.and_eq_true, decide_eq_true_eq] at h
        exact ⟨by simpa [List.any_eq_true] using hc, herr.mp h.1, h.2⟩
      · rw [if_neg hc] at h
        exact Bool.noConfusion h
    · rintro ⟨hany, hok, hlt⟩
      rw [if_pos (by simpa [List.any_eq_true] using hany)]
      simp only [Bool.and_eq_true, decide_eq_true_eq]
      exact ⟨herr.mpr hok, hlt⟩
  · intro p hp st hst hbad
    simp only [gpuDecideCompression]
    split
    · rw [Bool.and_eq_false_iff]
      left
      rw [decide_eq_false_iff_not]
      intro h0
      exact hbad (herr.mp h0 p hp st hst)
    · rfl

/-- Witness for `C6_decide_compression`: a chunk with a single page whose
compression status is the error code 1 is stored uncompressed. -/
theorem C6_decide_compression_witness :
    (⟨10, some ⟨5, 1⟩⟩ : PageCompView) ∈ [(⟨10, some ⟨5, 1⟩⟩ : PageCompView)] ∧
      (gpuDecideCompression [⟨10, some ⟨5, 1⟩⟩]).is_compressed = false :=
  ⟨List.mem_singleton.mpr rfl,
    (C6_decide_compression [⟨10, some ⟨5, 1⟩⟩]).2 ⟨10, some ⟨5, 1⟩⟩
      (List.mem_singleton.mpr rfl) ⟨5, 1⟩ rfl (by decide)⟩

/-! ## C4/C7: gpuInitPages (fragment-to-page packing) and gpuGatherPages -/

/-- `PageType` (DATA_PAGE / DICTIONARY_PAGE). -/
inductive PageType where
  | DATA_PAGE
  | DICTIONARY_PAGE
deriving DecidableEq, Repr

/-- The fields of one `PageFragment` read by `gpuInitPages`, plus
`minmax_len`, the value `max(stats[i].min_value.str_val.length,
stats[i].max_value.str_val.length)` the kernel reads from the fragment's
statistics when the column is a string column with statistics. -/
structure PageFragment where
  num_rows : ℕ
  num_values : ℕ
  num_leaf_values : ℕ
  fragment_data_size : ℕ
  num_dict_vals : ℕ
  minmax_len : ℕ
deriving DecidableEq, Repr

/-- Chunk-level inputs of `gpuInitPages` (fields of `EncColumnChunk` and of
the column descriptor that the kernel reads).  `stats_dtype_is_string`
and `stats_dtype_ge_int64` stand for the comparisons
`col_g.stats_dtype == dtype_string` and `col_g.stats_dtype >= dtype_int64`
on the statistics dtype enum (declared outside the excerpted sources). -/
structure ChunkIn where
  num_rows : ℕ
  num_values : ℕ
  start_row : ℕ
  use_dictionary : Bool
  dict_rle_bits : ℕ
  num_dict_entries : ℕ
  uniq_data_size : ℕ
  ck_stat_size : ℕ
  has_stats : Bool
  stats_dtype_is_string : Bool
  stats_dtype_ge_int64 : Bool
  def_level_bits : ℕ
  rep_level_bits : ℕ
deriving Repr

/-- Caller parameters of `gpuInitPages`. -/
structure PlanParams where
  max_page_size_bytes : ℕ
  max_page_size_rows : ℕ
  max_page_comp_data_size : ℕ
deriving Repr

/-- One page record as laid out by `gpuInitPages`.  `value_bytes` is a
ghost field recording the accumulated fragment byte total the page was
packed with (the `page_size` accumulator at flush time, before the
dictionary-chunk RLE re-estimate); it exists only so that theorems can
speak about the packed size, and has no counterpart written to `EncPage`. -/
structure EncPageInfo where
  page_type : PageType
  start_row : ℕ
  num_rows : ℕ
  num_leaf_values : ℕ
  num_values : ℕ
  num_fragments : ℕ
  max_hdr_size : ℕ
  max_data_size : ℕ
  page_offset : ℕ
  comp_page_offset : ℕ
  value_bytes : ℕ
deriving DecidableEq, Repr

/-- The per-warp accumulators of the `gpuInitPages` packing loop
(page_enc.cu lines 262-278), plus the list of pages written so far. -/
structure PlanState where
  fragments_in_chunk : ℕ
  rows_in_page : ℕ
  values_in_page : ℕ
  leaf_values_in_page : ℕ
  page_size : ℕ
  num_pages : ℕ
  num_rows : ℕ
  page_start : ℕ
  page_offset : ℕ
  comp_page_offset : ℕ
  page_headers_size : ℕ
  max_page_data_size : ℕ
  cur_row : ℕ
  ck_max_stats_len : ℕ
  max_stats_len : ℕ
  num_dict_entries : ℕ
  pages : List EncPageInfo
deriving Repr

/-- Page flush (page_enc.cu lines 349-412): close the current page, record
its layout metadata, and reset the per-page accumulators.  For dictionary
chunks `page_size` is re-estimated as the RLE-encoded size
`1 + 5 + ((values_in_page * dict_rle_bits + 7) >> 3) + (values_in_page >> 8)`;
the header bound is 32 bytes plus the statistics bound; the data bound adds
the def/rep level stream bounds
`4 + 5 + ((level_bits * num_values + 7) >> 3) + (num_values >> 8)`. -/
def flushPage (ck : ChunkIn) (pp : PlanParams) (st : PlanState) : PlanState :=
  let page_size :=
    if ck.use_dictionary then
      1 + 5 + (st.values_in_page * ck.dict_rle_bits + 7) / 8 + st.values_in_page / 256
    else st.page_size
  let stats_hdr_len :=
    if ck.stats_dtype_is_string then 16 + (5 * 3 + 2 * st.max_stats_len)
    else 16 + (if ck.stats_dtype_ge_int64 then 10 else 5) * 3
  let max_hdr_size := 32 + (if ck.has_stats then stats_hdr_len else 0)
  let def_level_size :=
    if ck.def_level_bits ≠ 0 then
      4 + 5 + (ck.def_level_bits * st.values_in_page + 7) / 8 + st.values_in_page / 256
    else 0
  let rep_level_size :=
    if ck.rep_level_bits ≠ 0 then
      4 + 5 + (ck.rep_level_bits * st.values_in_page + 7) / 8 + st.values_in_page / 256
    else 0
  let max_data_size := page_size + def_level_size + rep_level_size
  let page : EncPageInfo :=
    { page_type := .DATA_PAGE
      start_row := st.cur_row
      num_rows := st.rows_in_page
      num_leaf_values := st.leaf_values_in_page
      num_values := st.values_in_page
      num_fragments := st.fragments_in_chunk - st.page_start
      max_hdr_size := max_hdr_size
      max_data_size := max_data_size
      page_offset := st.page_offset
      comp_page_offset := st.comp_page_offset
      value_bytes := st.page_size }
  { st with
    pages := st.pages ++ [page]
    num_pages := st.num_pages + 1
    page_offset := st.page_offset + max_hdr_size + max_data_size
    comp_page_offset := st.comp_page_offset + max_hdr_size + pp.max_page_comp_data_size
    page_headers_size := st.page_headers_size + max_hdr_size
    max_page_data_size := max st.max_page_data_size max_data_size
    cur_row := st.cur_row + st.rows_in_page
    ck_max_stats_len := max st.ck_max_stats_len st.max_stats_len
    page_size := 0
    rows_in_page := 0
    values_in_page := 0
    leaf_values_in_page := 0
    page_start := st.fragments_in_chunk
    max_stats_len := 0 }

/-- The flush condition of the packing loop (page_enc.cu lines 346-348),
with the adaptive ceiling `this_max_page_size` of lines 339-344. -/
def flushCond (ck : ChunkIn) (pp : PlanParams) (st : PlanState) (fragment_data_size : ℕ) :
    Bool :=
  decide (st.num_rows ≥ ck.num_rows) ||
    (decide (0 < st.values_in_page) &&
      decide (st.page_size + fragment_data_size >
        this_max_page_size st.values_in_page ck.num_values pp.max_page_size_bytes)) ||
    decide (st.rows_in_page > pp.max_page_size_rows)

/-- The fragment's contribution to the page byte size (page_enc.cu lines
334-337): `num_leaf_values * 2` for dictionary chunks (worst-case 2-byte
indices), else `fragment_data_size`. -/
def fragSize (ck : ChunkIn) (f : PageFragment) : ℕ :=
  if ck.use_dictionary then f.num_leaf_values * 2 else f.fragment_data_size

/-- One iteration of the packing do-loop (page_enc.cu lines 320-421) for a
fetched fragment `f` with its statistics length `minmax_len` (`f` is the
zero sentinel when all of the chunk's rows have been consumed). -/
def planStep (ck : ChunkIn) (pp : PlanParams) (st : PlanState) (f : PageFragment) :
    PlanState :=
  let minmax_len :=
    if st.num_rows < ck.num_rows ∧ ck.has_stats ∧ ck.stats_dtype_is_string then f.minmax_len
    else 0
  let fragment_data_size := fragSize ck f
  let st1 := if flushCond ck pp st fragment_data_size then flushPage ck pp st else st
  { st1 with
    max_stats_len := max st1.max_stats_len minmax_len
    num_dict_entries := st1.num_dict_entries + f.num_dict_vals
    page_size := st1.page_size + fragment_data_size
    rows_in_page := st1.rows_in_page + f.num_rows
    values_in_page := st1.values_in_page + f.num_values
    leaf_values_in_page := st1.leaf_values_in_page + f.num_leaf_values
    num_rows := st1.num_rows + f.num_rows
    fragments_in_chunk := st1.fragments_in_chunk + 1 }

/-- The zero sentinel `frag_g.fragment_data_size = 0; frag_g.num_rows = 0`
used once `num_rows >= ck_g.num_rows` (page_enc.cu lines 329-332). -/
def zeroFrag : PageFragment := ⟨0, 0, 0, 0, 0, 0⟩

/-- The packing do-loop: while rows remain, fetch the next fragment and run
one iteration; the loop exits after the first iteration whose fragment has
`num_rows == 0`, i.e. after the sentinel iteration that flushes the final
page.  (If the fragment list runs dry while rows remain — a violation of
the caller's layout contract, where the device code would read past the
fragment array — the sentinel iteration is run.) -/
def planLoop (ck : ChunkIn) (pp : PlanParams) : List PageFragment → PlanState → PlanState
  | [], st => planStep ck pp st zeroFrag
  | f :: rest, st =>
    if st.num_rows < ck.num_rows then
      let st' := planStep ck pp st f
      if f.num_rows ≠ 0 then planLoop ck pp rest st' else st'
    else planStep ck pp st zeroFrag

/-- Initial state of the packing loop (page_enc.cu lines 262-312),
including the dictionary-page prelude for dictionary chunks: the
DICTIONARY_PAGE is written at page index 0 with a 32-byte header bound and
`uniq_data_size` data bound before any data page is laid out. -/
def planInit (ck : ChunkIn) (pp : PlanParams) : PlanState :=
  let base : PlanState :=
    { fragments_in_chunk := 0, rows_in_page := 0, values_in_page := 0
      leaf_values_in_page := 0, page_size := 0, num_pages := 0, num_rows := 0
      page_start := 0, page_offset := ck.ck_stat_size
      comp_page_offset := ck.ck_stat_size, page_headers_size := 0
      max_page_data_size := 0, cur_row := ck.start_row, ck_max_stats_len := 0
      max_stats_len := 0, num_dict_entries := 0, pages := [] }
  if ck.use_dictionary then
    let dict_page : EncPageInfo :=
      { page_type := .DICTIONARY_PAGE
        start_row := ck.start_row
        num_rows := ck.num_dict_entries
        num_leaf_values := ck.num_dict_entries
        num_values := ck.num_dict_entries
        num_fragments := 0
        max_hdr_size := 32
        max_data_size := ck.uniq_data_size
        page_offset := ck.ck_stat_size
        comp_page_offset := ck.ck_stat_size
        value_bytes := 0 }
    { base with
      pages := [dict_page]
      num_pages := 1
      page_offset := base.page_offset + 32 + ck.uniq_data_size
      comp_page_offset := base.comp_page_offset + 32 + pp.max_page_comp_data_size
      page_headers_size := base.page_headers_size + 32
      max_page_data_size := max base.max_page_data_size ck.uniq_data_size }
  else base

/-- Chunk-level outputs of `gpuInitPages` (page_enc.cu lines 423-436). -/
structure ChunkOut where
  num_pages : ℕ
  bfr_size : ℕ
  page_headers_size : ℕ
  max_page_data_size : ℕ
  ck_stat_size : ℕ
deriving Repr

/-- `gpuInitPages` for one column chunk: run the packing loop from the
initial state, then fold in the chunk-statistics reservation
(`48 + 2 * ck_max_stats_len` when the chunk has statistics and no
reservation yet) and report the chunk totals. -/
def gpuInitPages (ck : ChunkIn) (pp : PlanParams) (frags : List PageFragment) :
    List EncPageInfo × ChunkOut :=
  let st := planLoop ck pp frags (planInit ck pp)
  let ck_stat_size :=
    if ck.ck_stat_size = 0 ∧ ck.has_stats then 48 + 2 * st.ck_max_stats_len
    else ck.ck_stat_size
  let page_offset :=
    if ck.ck_stat_size = 0 ∧ ck.has_stats then st.page_offset + ck_stat_size
    else st.page_offset
  (st.pages,
    { num_pages := st.num_pages
      bfr_size := page_offset
      page_headers_size := st.page_headers_size
      max_page_data_size := st.max_page_data_size
      ck_stat_size := ck_stat_size })

/-- The bytes `gpuGatherPages` copies for one page: its finalized header
(`hdr_size` bytes from the header start) immediately followed by its data
(`max_data_size` bytes, compressed or uncompressed per the chunk's
decision). -/
structure GatherPage where
  hdr : List ℕ
  data : List ℕ
deriving DecidableEq, Repr

/-- The page-copy loop of `gpuGatherPages` (page_enc.cu lines 1424-1444):
pages are visited in increasing page order, each appending its header then
its data at the destination cursor. -/
def gatherLoop : List GatherPage → List ℕ → List ℕ
  | [], dst => dst
  | p :: rest, dst => gatherLoop rest (dst ++ p.hdr ++ p.data)

/-- `gpuGatherPages` for one chunk (page_enc.cu lines 1404-1450): the
destination starts after the chunk-level statistics
(`dst += ck_g.ck_stat_size`, modelled by the statistics bytes standing at
the head of the buffer), then the page-copy loop runs over the chunk's
pages in order. -/
def gpuGatherPages (ck_stat : List ℕ) (pages : List GatherPage) : List ℕ :=
  gatherLoop pages ck_stat

/-- The data pages of a chunk's page list. -/
def dataPages (ps : List EncPageInfo) : List EncPageInfo :=
  ps.filter fun p => p.page_type = .DATA_PAGE

/-- Invariant of the `gpuInitPages` packing loop. -/
def PlanInv (ck : ChunkIn) (pp : PlanParams) (st : PlanState) : Prop :=
  ((dataPages st.pages).map (·.num_rows)).sum + st.rows_in_page = st.num_rows ∧
  (∀ p ∈ dataPages st.pages,
    1 ≤ p.num_fragments ∧ (2 ≤ p.num_fragments → p.value_bytes ≤ pp.max_page_size_bytes)) ∧
  st.page_start ≤ st.fragments_in_chunk ∧
  (0 < st.values_in_page ↔ st.page_start < st.fragments_in_chunk) ∧
  (0 < st.rows_in_page → st.page_start < st.fragments_in_chunk) ∧
  (st.page_start + 2 ≤ st.fragments_in_chunk → st.page_size ≤ pp.max_page_size_bytes) ∧
  (ck.num_rows ≤ st.num_rows → 0 < st.rows_in_page)

lemma dataPages_append_data (ps : List EncPageInfo) (p : EncPageInfo)
    (hp : p.page_type = .DATA_PAGE) : dataPages (ps ++ [p]) = dataPages ps ++ [p] := by
  simp [dataPages, List.filter_append, hp]

/-- The fields of `flushPage` needed by the invariant proofs. -/
lemma flushPage_fields (ck : ChunkIn) (pp : PlanParams) (st : PlanState) :
    (∃ pg : EncPageInfo, (flushPage ck pp st).pages = st.pages ++ [pg] ∧
      pg.page_type = .DATA_PAGE ∧ pg.num_rows = st.rows_in_page ∧
      pg.num_fragments = st.fragments_in_chunk - st.page_start ∧
      pg.value_bytes = st.page_size) ∧
    (flushPage ck pp st).rows_in_page = 0 ∧
    (flushPage ck pp st).values_in_page = 0 ∧
    (flushPage ck pp st).page_size = 0 ∧
    (flushPage ck pp st).page_start = st.fragments_in_chunk ∧
    (flushPage ck pp st).fragments_in_chunk = st.fragments_in_chunk ∧
    (flushPage ck pp st).num_rows = st.num_rows := by
  refine ⟨⟨_, rfl, rfl, rfl, rfl, rfl⟩, rfl, rfl, rfl, rfl, rfl, rfl⟩

lemma planStep_proj_flush (ck : ChunkIn) (pp : PlanParams) (st : PlanState)
    (f : PageFragment) (h : flushCond ck pp st (fragSize ck f) = true) :
    (planStep ck pp st f).pages = (flushPage ck pp st).pages ∧
    (planStep ck pp st f).rows_in_page = f.num_rows ∧
    (planStep ck pp st f).values_in_page = f.num_values ∧
    (planStep ck pp st f).page_size = fragSize ck f ∧
    (planStep ck pp st f).page_start = st.fragments_in_chunk ∧
    (planStep ck pp st f).fragments_in_chunk = st.fragments_in_chunk + 1 ∧
    (planStep ck pp st f).num_rows = st.num_rows + f.num_rows := by
  simp [planStep, h, flushPage]

lemma planStep_proj_noflush (ck : ChunkIn) (pp : PlanParams) (st : PlanState)
    (f : PageFragment) (h : ¬ flushCond ck pp st (fragSize ck f) = true) :
    (planStep ck pp st f).pages = st.pages ∧
    (planStep ck pp st f).rows_in_page = st.rows_in_page + f.num_rows ∧
    (planStep ck pp st f).values_in_page = st.values_in_page + f.num_values ∧
    (planStep ck pp st f).page_size = st.page_size + fragSize ck f ∧
    (planStep ck pp st f).page_start = st.page_start ∧
    (planStep ck pp st f).fragments_in_chunk = st.fragments_in_chunk + 1 ∧
    (planStep ck pp st f).num_rows = st.num_rows + f.num_rows := by
  simp [planStep, h]

lemma flushCond_count (ck : ChunkIn) (pp : PlanParams) (st : PlanState) (fds : ℕ)
    (hinv : PlanInv ck pp st) (hlt : st.num_rows < ck.num_rows)
    (h : flushCond ck pp st fds = true) :
    st.page_start < st.fragments_in_chunk := by
  obtain ⟨-, -, -, i6, i7, -, -⟩ := hinv
  simp only [flushCond, Bool.or_eq_true, Bool.and_eq_true, decide_eq_true_eq] at h
  rcases h with (h | ⟨hv, -⟩) | h
  · omega
  · exact i6.mp hv
  · exact i7 (by omega)

lemma noflush_size_bound (ck : ChunkIn) (pp : PlanParams) (st : PlanState) (fds : ℕ)
    (hinv : PlanInv ck pp st) (hcount : st.page_start < st.fragments_in_chunk)
    (h : ¬ flushCond ck pp st fds = true) :
    st.page_size + fds ≤ pp.max_page_size_bytes := by
  obtain ⟨-, -, -, i6, -, -, -⟩ := hinv
  simp only [flushCond, Bool.or_eq_true, Bool.and_eq_true, decide_eq_true_eq, not_or,
    not_and, not_lt] at h
  have hv : 0 < st.values_in_page := i6.mpr hcount
  have := h.1.2 hv
  calc st.page_size + fds ≤
      this_max_page_size st.values_in_page ck.num_values pp.max_page_size_bytes := this
    _ ≤ pp.max_page_size_bytes := min_le_right _ _

/-- Preservation of `PlanInv` through one consuming iteration. -/
lemma PlanInv_step (ck : ChunkIn) (pp : PlanParams) (st : PlanState) (f : PageFragment)
    (hinv : PlanInv ck pp st) (hlt : st.num_rows < ck.num_rows)
    (hr : 0 < f.num_rows) (hv : 0 < f.num_values) :
    PlanInv ck pp (planStep ck pp st f) ∧
    (planStep ck pp st f).num_rows = st.num_rows + f.num_rows := by
  obtain ⟨i2, i3, i5, i6, i7, i8, i9⟩ := hinv
  by_cases hF : flushCond ck pp st (fragSize ck f) = true
  · obtain ⟨hpages, hrip, hvip, hps, hpst, hfic, hnr⟩ := planStep_proj_flush ck pp st f hF
    obtain ⟨⟨pg, hpg, hpt, hprows, hpnf, hpvb⟩, -, -, -, -, -, -⟩ := flushPage_fields ck pp st
    have hcount : st.page_start < st.fragments_in_chunk :=
      flushCond_count ck pp st _ ⟨i2, i3, i5, i6, i7, i8, i9⟩ hlt hF
    refine ⟨⟨?_, ?_, ?_, ?_, ?_, ?_, ?_⟩, hnr⟩
    · rw [hpages, hpg, dataPages_append_data _ _ hpt, hrip, hnr]
      simp only [List.map_append, List.sum_append, List.map_cons, List.map_nil,
        List.sum_cons, List.sum_nil, hprows]
      omega
    · rw [hpages, hpg, dataPages_append_data _ _ hpt]
      intro p hp
      rcases List.mem_append.mp hp with hp | hp
      · exact i3 p hp
      · rw [List.mem_singleton.mp hp]
        refine ⟨by omega, fun h2 => ?_⟩
        rw [hpvb]
        exact i8 (by omega)
    · omega
    · rw [hvip, hpst, hfic]; omega
    · rw [hpst, hfic]; omega
    · rw [hps, hpst, hfic]; omega
    · rw [hrip, hnr]; omega
  · obtain ⟨hpages, hrip, hvip, hps, hpst, hfic, hnr⟩ := planStep_proj_noflush ck pp st f hF
    refine ⟨⟨?_, ?_, ?_, ?_, ?_, ?_, ?_⟩, hnr⟩
    · rw [hpages, hrip, hnr]; omega
    · rw [hpages]; exact i3
    · omega
    · rw [hvip, hpst, hfic]; omega
    · rw [hpst, hfic]; omega
    · rw [hps, hpst, hfic]
      intro hc
      exact noflush_size_bound ck pp st _ ⟨i2, i3, i5, i6, i7, i8, i9⟩ (by omega) hF
    · rw [hrip, hnr]; intro; omega

/-- The sentinel iteration: once all rows are consumed the zero fragment
triggers the final flush, completing the row partition. -/
lemma PlanInv_sentinel (ck : ChunkIn) (pp : PlanParams) (st : PlanState)
    (hinv : PlanInv ck pp st) (hge : ck.num_rows ≤ st.num_rows) :
    ((dataPages (planStep ck pp st zeroFrag).pages).map (·.num_rows)).sum = st.num_rows ∧
    (∀ p ∈ dataPages (planStep ck pp st zeroFrag).pages,
      1 ≤ p.num_fragments ∧ (2 ≤ p.num_fragments → p.value_bytes ≤ pp.max_page_size_bytes)) := by
  obtain ⟨i2, i3, i5, i6, i7, i8, i9⟩ := hinv
  have hF : flushCond ck pp st (fragSize ck zeroFrag) = true := by
    simp only [flushCond, Bool.or_eq_true, decide_eq_true_eq]
    exact Or.inl (Or.inl hge)
  obtain ⟨hpages, hrip, hvip, hps, hpst, hfic, hnr⟩ := planStep_proj_flush ck pp st _ hF
  obtain ⟨⟨pg, hpg, hpt, hprows, hpnf, hpvb⟩, -, -, -, -, -, -⟩ := flushPage_fields ck pp st
  have hrows : 0 < st.rows_in_page := i9 hge
  have hcount : st.page_start < st.fragments_in_chunk := i7 hrows
  constructor
  · rw [hpages, hpg, dataPages_append_data _ _ hpt]
    simp only [List.map_append, List.sum_append, List.map_cons, List.map_nil,
      List.sum_cons, List.sum_nil, hprows]
    omega
  · rw [hpages, hpg, dataPages_append_data _ _ hpt]
    intro p hp
    rcases List.mem_append.mp hp with hp | hp
    · exact i3 p hp
    · rw [List.mem_singleton.mp hp]
      refine ⟨by omega, fun h2 => ?_⟩
      rw [hpvb]
      exact i8 (by omega)

lemma planInit_num_rows (ck : ChunkIn) (pp : PlanParams) : (planInit ck pp).num_rows = 0 := by
  by_cases hd : ck.use_dictionary = true <;> simp [planInit, hd]

/-- The packing-loop invariant holds at the initial state (for a chunk with
at least one row). -/
lemma PlanInv_init (ck : ChunkIn) (pp : PlanParams) (h0 : 0 < ck.num_rows) :
    PlanInv ck pp (planInit ck pp) := by
  by_cases hd : ck.use_dictionary = true <;>
    simp [PlanInv, planInit, dataPages, hd] <;> omega

/-- Running the packing loop from an invariant state consumes the fragment
list and partitions its rows into the emitted data pages. -/
lemma planLoop_correct (ck : ChunkIn) (pp : PlanParams) (frags : List PageFragment)
    (st : PlanState) (hinv : PlanInv ck pp st)
    (hfr : ∀ f ∈ frags, 0 < f.num_rows) (hfv : ∀ f ∈ frags, 0 < f.num_values)
    (hsum : st.num_rows + (frags.map (·.num_rows)).sum = ck.num_rows) :
    ((dataPages (planLoop ck pp frags st).pages).map (·.num_rows)).sum = ck.num_rows ∧
    (∀ p ∈ dataPages (planLoop ck pp frags st).pages,
      1 ≤ p.num_fragments ∧ (2 ≤ p.num_fragments → p.value_bytes ≤ pp.max_page_size_bytes)) := by
  induction frags generalizing st with
  | nil =>
    simp only [List.map_nil, List.sum_nil, Nat.add_zero] at hsum
    have := PlanInv_sentinel ck pp st hinv (le_of_eq hsum.symm)
    rw [planLoop]
    exact ⟨by rw [this.1, hsum], this.2⟩
  | cons f rest ih =>
    have hrf : 0 < f.num_rows := hfr f (List.mem_cons_self f rest)
    have hvf : 0 < f.num_values := hfv f (List.mem_cons_self f rest)
    have hlt : st.num_rows < ck.num_rows := by
      simp only [List.map_cons, List.sum_cons] at hsum
      omega
    obtain ⟨hinv', hnr⟩ := PlanInv_step ck pp st f hinv hlt hrf hvf
    rw [planLoop, if_pos hlt, if_pos (by omega : f.num_rows ≠ 0)]
    refine ih _ hinv' (fun g hg => hfr g (List.mem_cons_of_mem f hg))
      (fun g hg => hfv g (List.mem_cons_of_mem f hg)) ?_
    simp only [List.map_cons, List.sum_cons] at hsum
    omega

/-- C4: after `gpuInitPages` lays out a column chunk (given the caller's
layout contract: every fragment has at least one row and one value slot,
and the fragments' rows sum to the chunk's rows), the data pages partition
the chunk's rows — their `num_rows` sum to the chunk's `num_rows` — every
data page receives at least one fragment, and a page whose packed fragment
bytes exceed `max_page_size_bytes` holds exactly one fragment (so only the
degenerate single-oversized-fragment page can exceed the byte budget). -/
theorem C4_page_partition (ck : ChunkIn) (pp : PlanParams) (frags : List PageFragment)
    (h0 : 0 < ck.num_rows)
    (hfr : ∀ f ∈ frags, 0 < f.num_rows)
    (hfv : ∀ f ∈ frags, 0 < f.num_values)
    (hsum : (frags.map (·.num_rows)).sum = ck.num_rows) :
    ((dataPages (gpuInitPages ck pp frags).1).map (·.num_rows)).sum = ck.num_rows ∧
    (∀ p ∈ dataPages (gpuInitPages ck pp frags).1,
      1 ≤ p.num_fragments ∧ (2 ≤ p.num_fragments → p.value_bytes ≤ pp.max_page_size_bytes)) := by
  have := planLoop_correct ck pp frags (planInit ck pp) (PlanInv_init ck pp h0) hfr hfv
    (by rw [planInit_num_rows]; simpa using hsum)
  exact this

/-- Witness for `C4_page_partition`: a 10-row chunk of two 5-row fragments
is laid out into data pages whose rows sum to 10. -/
theorem C4_page_partition_witness :
    (0 < 10 ∧ (([⟨5, 5, 5, 100, 0, 0⟩, ⟨5, 5, 5, 100, 0, 0⟩] :
        List PageFragment).map (·.num_rows)).sum = 10) ∧
    ((dataPages (gpuInitPages ⟨10, 10, 0, false, 0, 0, 0, 0, false, false, false, 0, 0⟩
        ⟨512 * 1024, 20000, 0⟩ [⟨5, 5, 5, 100, 0, 0⟩, ⟨5, 5, 5, 100, 0, 0⟩]).1).map
      (·.num_rows)).sum = 10 :=
  ⟨⟨by decide, by decide⟩,
    (C4_page_partition ⟨10, 10, 0, false, 0, 0, 0, 0, false, false, false, 0, 0⟩
      ⟨512 * 1024, 20000, 0⟩ [⟨5, 5, 5, 100, 0, 0⟩, ⟨5, 5, 5, 100, 0, 0⟩]
      (by decide) (by decide) (by decide) (by decide)).1⟩

lemma planStep_pages_mono (ck : ChunkIn) (pp : PlanParams) (st : PlanState)
    (f : PageFragment) :
    ∃ suffix, (planStep ck pp st f).pages = st.pages ++ suffix ∧
      ∀ p ∈ suffix, p.page_type = .DATA_PAGE := by
  by_cases hF : flushCond ck pp st (fragSize ck f) = true
  · obtain ⟨hpages, -⟩ := planStep_proj_flush ck pp st f hF
    obtain ⟨⟨pg, hpg, hpt, -⟩, -⟩ := flushPage_fields ck pp st
    exact ⟨[pg], by rw [hpages, hpg], by simpa using hpt⟩
  · obtain ⟨hpages, -⟩ := planStep_proj_noflush ck pp st f hF
    exact ⟨[], by simpa using hpages, by simp⟩

lemma planLoop_pages_mono (ck : ChunkIn) (pp : PlanParams) (frags : List PageFragment)
    (st : PlanState) :
    ∃ suffix, (planLoop ck pp frags st).pages = st.pages ++ suffix ∧
      ∀ p ∈ suffix, p.page_type = .DATA_PAGE := by
  induction frags generalizing st with
  | nil => exact planStep_pages_mono ck pp st zeroFrag
  | cons f rest ih =>
    rw [planLoop]
    split
    · obtain ⟨s1, h1, hd1⟩ := planStep_pages_mono ck pp st f
      split
      · obtain ⟨s2, h2, hd2⟩ := ih (planStep ck pp st f)
        refine ⟨s1 ++ s2, ?_, ?_⟩
        · rw [h2, h1, List.append_assoc]
        · intro p hp
          rcases List.mem_append.mp hp with hp | hp
          · exact hd1 p hp
          · exact hd2 p hp
      · exact ⟨s1, h1, hd1⟩
    · exact planStep_pages_mono ck pp st zeroFrag

lemma gatherLoop_eq (pages : List GatherPage) (dst : List ℕ) :
    gatherLoop pages dst = dst ++ pages.flatMap fun p => p.hdr ++ p.data := by
  induction pages generalizing dst with
  | nil => simp [gatherLoop]
  | cons p rest ih => simp [gatherLoop, ih, List.append_assoc]

/-- C7: for a chunk that uses dictionary encoding, `gpuInitPages` places
the DICTIONARY_PAGE first in the chunk's page sequence and every following
page is a DATA_PAGE; and `gpuGatherPages` assembles the final contiguous
chunk buffer as the chunk-level statistics bytes followed by, in increasing
page order, each page's finalized header immediately followed by its
data. -/
theorem C7_dictionary_page_first (ck : ChunkIn) (pp : PlanParams)
    (frags : List PageFragment) (hd : ck.use_dictionary = true) :
    (∃ dp rest, (gpuInitPages ck pp frags).1 = dp :: rest ∧
      dp.page_type = .DICTIONARY_PAGE ∧ ∀ p ∈ rest, p.page_type = .DATA_PAGE) ∧
    (∀ (ck_stat : List ℕ) (pages : List GatherPage),
      gpuGatherPages ck_stat pages = ck_stat ++ pages.flatMap fun p => p.hdr ++ p.data) := by
  constructor
  · obtain ⟨suffix, hs, hdata⟩ := planLoop_pages_mono ck pp frags (planInit ck pp)
    have hinit : (planInit ck pp).pages =
        [{ page_type := .DICTIONARY_PAGE
           start_row := ck.start_row
           num_rows := ck.num_dict_entries
           num_leaf_values := ck.num_dict_entries
           num_values := ck.num_dict_entries
           num_fragments := 0
           max_hdr_size := 32
           max_data_size := ck.uniq_data_size
           page_offset := ck.ck_stat_size
           comp_page_offset := ck.ck_stat_size
           value_bytes := 0 }] := by
      simp [planInit, hd]
    refine ⟨{ page_type := .DICTIONARY_PAGE
              start_row := ck.start_row
              num_rows := ck.num_dict_entries
              num_leaf_values := ck.num_dict_entries
              num_values := ck.num_dict_entries
              num_fragments := 0
              max_hdr_size := 32
              max_data_size := ck.uniq_data_size
              page_offset := ck.ck_stat_size
              comp_page_offset := ck.ck_stat_size
              value_bytes := 0 }, suffix, ?_, rfl, hdata⟩
    show (planLoop ck pp frags (planInit ck pp)).pages = _
    rw [hs, hinit]
    rfl
  · intro ck_stat pages
    exact gatherLoop_eq pages ck_stat

/-- Witness for `C7_dictionary_page_first` on a concrete dictionary chunk:
the first page is the dictionary page and gathering lays out
statistics/header/data contiguously. -/
theorem C7_dictionary_page_first_witness :
    (⟨10, 10, 0, true, 2, 4, 16, 0, false, false, false, 0, 0⟩ : ChunkIn).use_dictionary = true ∧
    (∃ dp rest,
      (gpuInitPages ⟨10, 10, 0, true, 2, 4, 16, 0, false, false, false, 0, 0⟩
        ⟨512 * 1024, 20000, 0⟩ [⟨5, 5, 5, 100, 0, 0⟩, ⟨5, 5, 5, 100, 0, 0⟩]).1 = dp :: rest ∧
      dp.page_type = .DICTIONARY_PAGE ∧ ∀ p ∈ rest, p.page_type = .DATA_PAGE) :=
  ⟨rfl,
    (C7_dictionary_page_first ⟨10, 10, 0, true, 2, 4, 16, 0, false, false, false, 0, 0⟩
      ⟨512 * 1024, 20000, 0⟩ [⟨5, 5, 5, 100, 0, 0⟩, ⟨5, 5, 5, 100, 0, 0⟩] rfl).1⟩

end PageEnc

namespace Dremel

/-! ## C1: get_dremel_data (rep/def level builder for LIST columns)

Embedding of `get_dremel_data` (page_enc.cu lines 1588-1905) and
`def_level_fn` (lines 1457-1486).  A `cudf::column_view` is embedded as a
tree: a LIST node carries its (full, unsliced) offsets array and child, a
STRUCT node carries its first child (the only child the dremel walk
visits), and each node carries its slice offset, size, null-mask presence
flag (`nullable`) and null-mask predicate (`valid`, i.e. `bit_is_set`). -/

/-- Embedded `cudf::column_view` restricted to what the dremel builder
reads. -/
inductive ColView where
  | leaf (offset size : ℕ) (nullable : Bool) (valid : ℕ → Bool)
  | list (offset size : ℕ) (nullable : Bool) (valid : ℕ → Bool)
      (offsets : List ℕ) (child : ColView)
  | strct (offset size : ℕ) (nullable : Bool) (valid : ℕ → Bool) (child : ColView)

/-- `col.nullable()`. -/
def ColView.nullableB : ColView → Bool
  | .leaf _ _ n _ => n
  | .list _ _ n _ _ _ => n
  | .strct _ _ n _ _ => n

/-- `bit_is_set(col.null_mask(), i)`. -/
def ColView.validAt : ColView → ℕ → Bool
  | .leaf _ _ _ v, i => v i
  | .list _ _ _ v _ _, i => v i
  | .strct _ _ _ v _, i => v i

/-- `col.offset()`. -/
def ColView.off : ColView → ℕ
  | .leaf o _ _ _ => o
  | .list o _ _ _ _ _ => o
  | .strct o _ _ _ _ => o

/-- `col.size()`. -/
def ColView.sz : ColView → ℕ
  | .leaf _ s _ _ => s
  | .list _ s _ _ _ _ => s
  | .strct _ s _ _ _ => s

/-- `cudf::is_nested` (LIST or STRUCT). -/
def is_nested : ColView → Bool
  | .leaf .. => false
  | _ => true

/-- The `get_list_level` lambda (lines 1594-1599): descend through STRUCT
levels to the first non-STRUCT column. -/
def get_list_level : ColView → ColView
  | .strct _ _ _ _ child => get_list_level child
  | c => c

/-- The offsets array of the list column at the head of a nesting level
(`lists_column_view(get_list_level(col)).offsets()`). -/
def listOffsets (c : ColView) : List ℕ :=
  match get_list_level c with
  | .list _ _ _ _ offs _ => offs
  | _ => []

/-- The inner loop of `add_def_at_level` (lines 1629-1645): walk through
the STRUCT chain adding 1 per nullable struct level, then add 2 (nullable)
or 1 (non-nullable) for the list-or-leaf column that follows; returns the
def increment and the advanced `curr_nesting_level_idx`. -/
def addDefWalk (nullability : List Bool) : ColView → ℕ → ℕ × ℕ
  | .strct _ _ _ _ child, idx =>
    let r := addDefWalk nullability child (idx + 1)
    ((if nullability.getD idx false then 1 else 0) + r.1, r.2)
  | _, idx => ((if nullability.getD idx false then 2 else 1), idx + 1)

/-- Descend through STRUCT levels (the `while (curr_col.type().id() ==
type_id::STRUCT)` loop of lines 1649-1652). -/
def skipStructs : ColView → ColView
  | .strct _ _ _ _ child => skipStructs child
  | c => c

/-- Structural depth of a column tree, used as loop fuel. -/
def ColView.depth : ColView → ℕ
  | .leaf .. => 0
  | .list _ _ _ _ _ c => c.depth + 1
  | .strct _ _ _ _ c => c.depth + 1

/-- The nesting-level decomposition loop (lines 1646-1664): collect
`nesting_levels`, `def_at_level` (pre-scan) and `start_at_sub_level`. -/
def buildLevels (nullability : List Bool) :
    ℕ → ColView → ℕ → List ColView × List ℕ × List ℕ
  | 0, _, _ => ([], [], [])
  | fuel + 1, col, idx =>
    if is_nested col then
      let start := idx
      let d := addDefWalk nullability col idx
      match skipStructs col with
      | .list _ _ _ _ _ child =>
        if is_nested child then
          let r := buildLevels nullability fuel child d.2
          (col :: r.1, d.1 :: r.2.1, start :: r.2.2)
        else
          -- leaf data column immediately under the list: include it now
          let d2 := addDefWalk nullability child d.2
          ([col, child], [d.1, d2.1], [start, d.2])
      | _ => ([col], [d.1], [start])
    else ([], [], [])

/-- The per-level (offset, end) walk run by `device_single_thread`
(lines 1677-1703): record the root's slice bounds, then apply each list's
offsets array to push the bounds one level down, skipping STRUCT levels. -/
def colOffsetsWalk : ColView → ℕ → ℕ → List (ℕ × ℕ)
  | .list _ _ _ _ offs child, o, e =>
    let o' := offs.getD o 0
    let e' := offs.getD e 0
    (o', e') :: colOffsetsWalk child o' e'
  | .strct _ _ _ _ child, o, e => colOffsetsWalk child o e
  | .leaf .., _, _ => []

/-- All (column_offsets, column_ends) pairs, one per nesting level. -/
def columnOffsetsEnds (col : ColView) : List (ℕ × ℕ) :=
  (col.off, col.off + col.sz) :: colOffsetsWalk col col.off (col.off + col.sz)

/-- `get_empties` (lines 1601-1621): rows `i` in `[start, end)` whose list
is empty (`offsets[i] == offsets[i+1]`); returns (gathered offset values,
row indices). -/
def get_empties (col : ColView) (start e : ℕ) : List ℕ × List ℕ :=
  let offs := listOffsets col
  let idx := (List.range' start (e - start)).filter fun i => offs.getD i 0 = offs.getD (i + 1) 0
  (idx.map fun i => offs.getD i 0, idx)

/-- `def_level_fn::operator()` (lines 1463-1485): starting from
`curr_def_level`, walk the STRUCT chain from `sub_level_start`; a level
listed as nullable adds 1 when the column has no null mask or row `i` is
valid, and stops the walk otherwise; the walk continues while the current
column is a STRUCT. -/
def def_level_fn (nullability : List Bool) (i : ℕ) : ColView → ℕ → ℕ → ℕ
  | .strct _ _ nullable valid child, l, d =>
    if nullability.getD l false then
      if !nullable || valid i then def_level_fn nullability i child (l + 1) (d + 1) else d
    else def_level_fn nullability i child (l + 1) d
  | col, l, d =>
    if nullability.getD l false then
      if !col.nullableB || col.validAt i then d + 1 else d
    else d

/-- `thrust::merge_by_key` on (key, value) pairs: stable merge in which
elements of the first range precede equal-keyed elements of the second
(fuel-driven; fuel is the total length). -/
def mergeByKeyAux {α : Type} : ℕ → List (ℕ × α) → List (ℕ × α) → List α
  | 0, as, bs => as.map (·.2) ++ bs.map (·.2)
  | _ + 1, [], bs => bs.map (·.2)
  | _ + 1, a :: as, [] => (a :: as).map (·.2)
  | fuel + 1, a :: as, b :: bs =>
    if a.1 ≤ b.1 then a.2 :: mergeByKeyAux fuel as (b :: bs)
    else b.2 :: mergeByKeyAux fuel (a :: as) bs

/-- `thrust::merge_by_key`, discarding the merged keys. -/
def mergeByKey {α : Type} (as bs : List (ℕ × α)) : List α :=
  mergeByKeyAux (as.length + bs.length) as bs

/-- `thrust::exclusive_scan` with initial value `acc`. -/
def exclusiveScan : List ℕ → ℕ → List ℕ
  | [], _ => []
  | x :: xs, acc => acc :: exclusiveScan xs (acc + x)

/-- `thrust::scatter` of a constant value at the given positions. -/
def scatterConst (v : ℕ) (idxs : List ℕ) (xs : List ℕ) : List ℕ :=
  idxs.foldl (fun acc i => acc.set i v) xs

/-- The result record `dremel_data`. -/
structure dremel_data where
  dremel_offsets : List ℕ
  rep_level : List ℕ
  def_level : List ℕ
  leaf_data_size : ℕ
deriving DecidableEq, Repr

/-- The `(i + 1 < size) && (off[i] == off[i + 1])` indicator sequence fed
to the shift scan (lines 1781-1787 and 1865-1871), over
`offset_size_at_level` positions starting at `column_offsets[level]`. -/
def emptiesShiftScan (offs : List ℕ) (colOff count : ℕ) : List ℕ :=
  exclusiveScan
    ((List.range' colOff count).map fun i =>
      if i + 1 < offs.length ∧ offs.getD i 0 = offs.getD (i + 1) 0 then 1 else 0) 0

/-- One iteration of the upward merge loop (lines 1811-1893), merging the
empties of `level` with the already-merged rep/def values of the levels
below; `new_offsets` are the child-level offsets re-indexed into the merged
value array by `offset_transformer`. -/
def mergeLevel (nullability : List Bool) (levels : List ColView)
    (offEnds : List (ℕ × ℕ)) (defAt startAt : List ℕ) (level : ℕ)
    (repv defv new_offsets : List ℕ) : List ℕ × List ℕ × List ℕ :=
  let curr_col := levels.getD level (.leaf 0 0 false fun _ => false)
  let offs := listOffsets curr_col
  let colOff := (offEnds.getD level (0, 0)).1
  let colEnd := (offEnds.getD level (0, 0)).2
  let offset_size_at_level := colEnd - colOff + 1
  let em := get_empties curr_col colOff colEnd
  let childStart := (offEnds.getD (level + 1) (0, 0)).1
  let offset_transformer := fun x => new_offsets.getD (x - childStart) 0
  let transformed_empties := em.1.map offset_transformer
  let parent : List (ℕ × (ℕ × ℕ)) :=
    transformed_empties.zip (em.2.map fun i =>
      (level, def_level_fn nullability i curr_col (startAt.getD level 0) (defAt.getD level 0)))
  let child : List (ℕ × (ℕ × ℕ)) :=
    (List.range repv.length).zip (repv.zip defv)
  let merged := mergeByKey parent child
  let scan_out := emptiesShiftScan offs colOff offset_size_at_level
  let temp_new_offsets := (List.range offset_size_at_level).map fun i =>
    offset_transformer (offs.getD (colOff + i) 0) + scan_out.getD i 0
  let rep1 := scatterConst level (temp_new_offsets.take (temp_new_offsets.length - 1))
    (merged.map (·.1))
  (rep1, merged.map (·.2), temp_new_offsets)

/-- The countdown over levels `nesting_levels.size() - 3 … 0`
(line 1811: `for (int level = nesting_levels.size() - 3; level >= 0; level--)`). -/
def mergeLevelsDown (nullability : List Bool) (levels : List ColView)
    (offEnds : List (ℕ × ℕ)) (defAt startAt : List ℕ) :
    ℕ → List ℕ × List ℕ × List ℕ → List ℕ × List ℕ × List ℕ
  | 0, acc => acc
  | level + 1, acc =>
    let r := mergeLevel nullability levels offEnds defAt startAt level acc.1 acc.2.1 acc.2.2
    mergeLevelsDown nullability levels offEnds defAt startAt level r

/-- `get_dremel_data` (lines 1588-1905): build the nesting levels, the
per-level def increments (exclusive-scanned) and per-level slice bounds;
merge the deepest-list empties with the leaf values (first block,
lines 1723-1807); then merge upward one level at a time; finally truncate
the rep/def arrays to the total merged size recorded in the last new
offset. -/
def get_dremel_data (h_col : ColView) (nullability : List Bool) : dremel_data :=
  let bl := buildLevels nullability (h_col.depth + 1) h_col 0
  let nesting_levels := bl.1
  let def_at_level := exclusiveScan bl.2.1 0
  let start_at_sub_level := bl.2.2
  let offEnds := columnOffsetsEnds h_col
  let n := nesting_levels.length
  -- first merge: the deepest list level (n-2) against the leaf level (n-1)
  let level := n - 2
  let curr_col := nesting_levels.getD level (.leaf 0 0 false fun _ => false)
  let offs := listOffsets curr_col
  let colOff := (offEnds.getD level (0, 0)).1
  let colEnd := (offEnds.getD level (0, 0)).2
  let offset_size_at_level := colEnd - colOff + 1
  let em := get_empties curr_col colOff colEnd
  let childOff := (offEnds.getD (level + 1) (0, 0)).1
  let childEnd := (offEnds.getD (level + 1) (0, 0)).2
  let leafCol := nesting_levels.getD (level + 1) (.leaf 0 0 false fun _ => false)
  let parent : List (ℕ × (ℕ × ℕ)) :=
    em.1.zip (em.2.map fun i =>
      (level, def_level_fn nullability i curr_col (start_at_sub_level.getD level 0)
        (def_at_level.getD level 0)))
  let child : List (ℕ × (ℕ × ℕ)) :=
    (List.range' childOff (childEnd - childOff)).map fun j =>
      (j, (n - 1, def_level_fn nullability j leafCol (start_at_sub_level.getD (level + 1) 0)
        (def_at_level.getD (level + 1) 0)))
  let merged := mergeByKey parent child
  let scan_out := emptiesShiftScan offs colOff offset_size_at_level
  let new_offsets := (List.range offset_size_at_level).map fun i =>
    offs.getD (colOff + i) 0 - offs.getD colOff 0 + scan_out.getD i 0
  let rep1 := scatterConst level (new_offsets.take (new_offsets.length - 1))
    (merged.map (·.1))
  -- upward merges for levels n-3 … 0
  let r := mergeLevelsDown nullability nesting_levels offEnds def_at_level start_at_sub_level
    (n - 2) (rep1, merged.map (·.2), new_offsets)
  let level_vals_size := r.2.2.getLastD 0
  { dremel_offsets := r.2.2
    rep_level := r.1.take level_vals_size
    def_level := r.2.1.take level_vals_size
    leaf_data_size := (offEnds.getLastD (0, 0)).2 - (offEnds.getLastD (0, 0)).1 }

end Dremel

namespace Dremel

/-- The `List<List<int>>` column of the dremel docs and spec:
`[[], [[], [1, 2, 3], [4, 5]], [[]]]`.  Level-0 offsets are `[0, 0, 3, 4]`
(3 rows, 4 inner lists), level-1 offsets are `[0, 0, 3, 5, 5]` (4 inner
lists, 5 leaf values); no level is nullable. -/
def exampleCol : ColView :=
  .list 0 3 false (fun _ => true) [0, 0, 3, 4]
    (.list 0 4 false (fun _ => true) [0, 0, 3, 5, 5]
      (.leaf 0 5 false fun _ => true))

/-- The nullability flags handed to `get_dremel_data` for `exampleCol`:
all levels non-nullable. -/
def exampleNullability : List Bool := [false, false, false]

/-- C1 counterexample: on `[[], [[], [1, 2, 3], [4, 5]], [[]]]`,
`get_dremel_data` does not produce the claimed pair (def levels
`[0,1,2,2,2,2,2,1]`, rep levels `[0,0,0,2,2,1,2,0]`): the third repetition
level is 1, not 0, because the value 1 opens a new inner list within row 1
rather than starting at the shared depth 0. -/
theorem C1_counterexample :
    ¬((get_dremel_data exampleCol exampleNullability).def_level = [0, 1, 2, 2, 2, 2, 2, 1] ∧
      (get_dremel_data exampleCol exampleNullability).rep_level = [0, 0, 0, 2, 2, 1, 2, 0]) := by
  decide

/-- C1 (amended): for the `List<List<int>>` column with values
`[[], [[], [1, 2, 3], [4, 5]], [[]]]` (all levels non-nullable),
`get_dremel_data` produces definition levels `[0,1,2,2,2,2,2,1]` — one
phantom slot per empty list plus one definition level per real leaf
value — and repetition levels `[0,0,1,2,2,1,2,0]`, in which each new
outer-row element restarts at repetition level 0 and each new inner list
within a row restarts at its own list depth 1. -/
theorem C1_dremel_levels :
    (get_dremel_data exampleCol exampleNullability).def_level = [0, 1, 2, 2, 2, 2, 2, 1] ∧
    (get_dremel_data exampleCol exampleNullability).rep_level = [0, 0, 1, 2, 2, 1, 2, 0] ∧
    (get_dremel_data exampleCol exampleNullability).leaf_data_size = 5 := by
  decide

end Dremel

namespace Rle

/-! ## C3/C5/C10: the hybrid-RLE encoder (RleEncode / PackLiterals)

Sequential embedding of `RleEncode` (page_enc.cu lines 553-682) and
`PackLiterals` (lines 469-542).  The 128-thread block becomes explicit
window computations: a `ballot` over threads `t` becomes a predicate on
window offsets, the `rpt_map`/`__ffs` leading-ones counts become
`countLeading`, and the output pointer `s->rle_out` becomes the length of
an append-only byte list.  While a literal run is open (`rle_run` odd),
the packed but unheadered payload bytes at `rle_out + 1 …` are held in a
separate `lit` list; closing the run appends the header byte followed by
these bytes, exactly as `dst[0] = rle_run; dst += 1 + nbits*(rle_run>>1)`
finalizes them in the buffer.  The circular 512-entry `s->vals` window is
modelled by reading the value stream directly: the encoder only ever reads
positions in `[rle_pos, rle_pos + 128]`, which stay within 512 positions
of the write frontier `numvals`. -/

/-- Number of consecutive `true` values of `p` starting at offset `i`,
capped by the fuel (the `__ffs`-based leading-ones counts over
`rpt_map`). -/
def countLeadingAux : ℕ → ℕ → (ℕ → Bool) → ℕ
  | 0, _, _ => 0
  | cap + 1, i, p => if p i then 1 + countLeadingAux cap (i + 1) p else 0

/-- Leading-ones count of a 0-based predicate, capped at `cap`. -/
def countLeading (cap : ℕ) (p : ℕ → Bool) : ℕ := countLeadingAux cap 0 p

/-- `kRleRunMask` (page_enc.cu lines 450-451): how many consecutive
repeats are needed to code a repeat run, as contiguous low-bit masks
indexed by `nbits - 1`. -/
def kRleRunMask : List ℕ :=
  [0x00ffffff, 0x0fff, 0x00ff, 0x3f, 0x0f, 0x0f, 0x7, 0x7, 0x3, 0x3, 0x3, 0x3, 0x1, 0x1, 0x1, 0x1]

/-- The bit counts of `kRleRunMask`: the number of consecutive pair-equal
bits `(funnelshift_r(m0, m1, pos8) & needed_mask) == needed_mask`
requires. -/
def kRleRunNeeded : List ℕ := [24, 12, 8, 6, 4, 4, 3, 3, 2, 2, 2, 2, 1, 1, 1, 1]

/-- `kRleRunNeeded` lists exactly the widths of the `kRleRunMask`
all-ones masks. -/
lemma kRleRunNeeded_spec :
    ∀ i < 16, kRleRunMask.getD i 0 = 2 ^ kRleRunNeeded.getD i 0 - 1 := by decide

/-- Little-endian base-`base` assembly of a value list (the bit-packed
word all `PackLiterals` code paths build by shifting value `i` to bit
offset `i * w` and OR-accumulating). -/
def natOfChunks (base : ℕ) : List ℕ → ℕ
  | [] => 0
  | v :: vs => v + base * natOfChunks base vs

/-- `PackLiterals` (page_enc.cu lines 469-542): bit-pack `vs.length`
values of width `w` little-endian into `(count * w + 7) / 8` bytes.  The
fast paths (w = 1, 2, 4: shuffle-OR per byte; w = 8: direct store; w = 12:
two values per 3 bytes; w = 16: two-byte little-endian) and the scratch
atomic-OR path for other widths all store value `t` at bit offset
`t * w`. -/
def PackLiterals (w : ℕ) (vs : List ℕ) : List ℕ :=
  PageEnc.leBytes ((vs.length * w + 7) / 8) (natOfChunks (2 ^ w) vs)

/-- The RLE-relevant state of `page_enc_state_s`: input cursor `rle_pos`,
current run descriptor `rle_run` / `run_val`, the closed output bytes
(`out`, whose length is the cursor `s->rle_out`), and the staged payload
of the currently open literal run (`lit`). -/
structure RleState where
  rle_pos : ℕ
  rle_run : ℕ
  run_val : ℕ
  out : List ℕ
  lit : List ℕ
deriving DecidableEq, Repr

/-- The repeat-run branch of the `RleEncode` loop (page_enc.cu lines
561-589): count how many of the next window values extend the run
(`ballot` + `rpt_map` leading-ones), extend the run, and emit it —
VLQ header, then the 1- or 2-byte run value — when it ends inside the
window or at the flushed end of input. -/
def repeatModeStep (vals : ℕ → ℕ) (numvals nbits : ℕ) (flush : Bool) (s : RleState) :
    RleState × Bool :=
  let cnt := countLeading 128 fun t =>
    decide (s.rle_pos + t < numvals) && decide (vals (s.rle_pos + t) = s.run_val)
  let max_rpt_count := min (numvals - s.rle_pos) 128
  let rle_run := s.rle_run + cnt * 2
  let rle_pos := s.rle_pos + cnt
  if cnt < max_rpt_count ∨ (flush ∧ rle_pos = numvals) then
    let out' := s.out ++ PageEnc.VlqEncode rle_run ++ [s.run_val % 256] ++
      (if nbits > 8 then [s.run_val / 256 % 256] else [])
    ({ s with rle_pos := rle_pos, rle_run := 0, out := out' }, true)
  else
    ({ s with rle_pos := rle_pos, rle_run := rle_run }, true)

/-- The run-detection scan of the literal branch (page_enc.cu lines
592-627): from the pair-equality ballot, find the first multiple-of-8
window offset at which `kRleRunMask[nbits-1]` consecutive pair-equal bits
occur (`rle_run_start`), and the length of the repeat run there
(`rle_rpt_count`); returns `(rle_run_start, rle_rpt_count)`. -/
def litRunScan (vals : ℕ → ℕ) (numvals nbits : ℕ) (s : RleState) : ℕ × ℕ :=
  let pairBit := fun t =>
    decide (s.rle_pos + t + 1 < numvals) &&
      decide (vals (s.rle_pos + t) = vals (s.rle_pos + t + 1))
  let maxvals := min (numvals - s.rle_pos) 128
  let needed := kRleRunNeeded.getD (nbits - 1) 0
  let runStartFound := (List.range 32).find? fun t =>
    (List.range needed).all fun i => decide (8 * t + i < 128) && pairBit (8 * t + i)
  let rle_run_start := match runStartFound with
    | some t => min (8 * t) maxvals
    | none => maxvals
  let rpt_len :=
    if rle_run_start < maxvals then
      countLeading (128 - rle_run_start) fun i => pairBit (rle_run_start + i)
    else 0
  (rle_run_start, min rpt_len (maxvals - rle_run_start))

/-- The literal-packing sub-block (page_enc.cu lines 640-652): compute the
group count (rounded up by 7 only at the flushed end of input), truncate
it to keep the one-byte literal header at most `0x7f` — deferring the
repeat run (`rle_rpt_count = 0`) — and append the `PackLiterals` payload
of the next `lit_div8 * 8` window values (zero beyond `numvals`).
Returns the new state and the possibly-deferred `rle_rpt_count`. -/
def packStep (vals : ℕ → ℕ) (numvals nbits : ℕ) (flush : Bool) (s : RleState)
    (rle_lit_count rle_rpt_count0 : ℕ) : RleState × ℕ :=
  if rle_lit_count ≠ 0 then
    let lit_div8a :=
      (rle_lit_count + if flush ∧ s.rle_pos + rle_lit_count = numvals then 7 else 0) / 8
    let trunc := s.rle_run + lit_div8a * 2 > 0x7f
    let lit_div8 := if trunc then 0x3f - s.rle_run / 2 else lit_div8a
    let rpt' := if trunc then 0 else rle_rpt_count0
    if lit_div8 ≠ 0 then
      let payload := PackLiterals nbits ((List.range (lit_div8 * 8)).map fun t =>
        if s.rle_pos + t < numvals then vals (s.rle_pos + t) else 0)
      let r2 := s.rle_run + lit_div8 * 2
      let sp := { s with
        lit := s.lit ++ payload
        rle_run := if r2 % 2 = 1 then r2 else r2 + 1
        rle_pos := min (s.rle_pos + lit_div8 * 8) numvals }
      (sp, rpt')
    else (s, rpt')
  else (s, rle_rpt_count0)

/-- Completing a literal run (page_enc.cu lines 653-663): write the header
byte `rle_run` at `rle_out[0]` followed by the staged payload, and reset
the run. -/
def closeLit (s : RleState) : RleState :=
  { s with out := s.out ++ [s.rle_run] ++ s.lit, lit := [], rle_run := 0 }

/-- Starting a repeat run (page_enc.cu lines 666-672): record the run
value (the window value at offset `rle_lit_count`), set the even run
descriptor, advance, and break when the run reaches the last available
value without flush. -/
def startRpt (v c numvals : ℕ) (flush : Bool) (s : RleState) : RleState × Bool :=
  let s3 := { s with run_val := v, rle_run := c * 2, rle_pos := s.rle_pos + c }
  if s3.rle_pos + 1 = numvals ∧ ¬flush then (s3, false) else (s3, true)

/-- The new-run-or-literal branch of the `RleEncode` loop (page_enc.cu
lines 590-672). -/
def literalModeStep (vals : ℕ → ℕ) (numvals nbits : ℕ) (flush : Bool) (s : RleState) :
    RleState × Bool :=
  let scan := litRunScan vals numvals nbits s
  let rle_rpt_count0 := scan.2
  let rle_lit_count0 := scan.1
  if rle_lit_count0 ≠ 0 ∨ (s.rle_run ≠ 0 ∧ rle_rpt_count0 ≠ 0) then
    let need_more_data := ¬flush ∧ s.rle_pos + rle_lit_count0 = numvals
    let rle_lit_count :=
      if need_more_data then rle_lit_count0 - min rle_lit_count0 24 else rle_lit_count0
    let packed := packStep vals numvals nbits flush s rle_lit_count rle_rpt_count0
    let s1 := packed.1
    let rle_rpt_count := packed.2
    let s2 :=
      if s1.rle_run ≥
          (if rle_rpt_count ≠ 0 ∨ (flush ∧ s1.rle_pos = numvals) then 0x03 else 0x7f) then
        closeLit s1
      else s1
    if need_more_data then (s2, false)
    else if rle_rpt_count ≠ 0 then
      startRpt (vals (s.rle_pos + rle_lit_count0)) rle_rpt_count numvals flush s2
    else (s2, true)
  else
    if rle_rpt_count0 ≠ 0 then
      startRpt (vals (s.rle_pos + rle_lit_count0)) rle_rpt_count0 numvals flush s
    else (s, true)

/-- One iteration of the `RleEncode` while-loop (page_enc.cu lines
559-675).  Returns the new state and `true` to continue looping, `false`
for the two `break`s (wait-for-more-data, and a repeat run reaching the
last available value without flush). -/
def rleStep (vals : ℕ → ℕ) (numvals nbits : ℕ) (flush : Bool) (s : RleState) :
    RleState × Bool :=
  if 0 < s.rle_run ∧ s.rle_run % 2 = 0 then repeatModeStep vals numvals nbits flush s
  else literalModeStep vals numvals nbits flush s

/-- The `RleEncode` while-loop, fuel-driven (the fuel passed by
`RleEncode` strictly dominates the loop measure). -/
def rleLoop (vals : ℕ → ℕ) (numvals nbits : ℕ) (flush : Bool) : ℕ → RleState → RleState
  | 0, s => s
  | fuel + 1, s =>
    if s.rle_pos < numvals ∨ (flush ∧ s.rle_run ≠ 0) then
      let r := rleStep vals numvals nbits flush s
      if r.2 then rleLoop vals numvals nbits flush fuel r.1 else r.1
    else s

/-- `RleEncode` (one call, processing input positions up to `numvals`). -/
def RleEncode (vals : ℕ → ℕ) (numvals nbits : ℕ) (flush : Bool) (s : RleState) : RleState :=
  rleLoop vals numvals nbits flush (2 * numvals + 4) s

/-- The batch driver shared by `encode_levels` (page_enc.cu lines 845-868)
and the dictionary-index path (lines 941-963): feed the value stream in
batches of up to 128 positions, calling `RleEncode` after each batch with
`flush` set exactly on the final batch. -/
def rleChunks (vals : ℕ → ℕ) (total nbits : ℕ) : ℕ → ℕ → RleState → RleState
  | 0, _, s => s
  | fuel + 1, numvals, s =>
    if numvals < total then
      let numvals' := numvals + min (total - numvals) 128
      rleChunks vals total nbits fuel numvals'
        (RleEncode vals numvals' nbits (decide (numvals' = total)) s)
    else s

/-- Encode a full value list through the batch driver from the initial
state. -/
def encodeRle (l : List ℕ) (nbits : ℕ) : RleState :=
  rleChunks (fun i => l.getD i 0) l.length nbits (l.length / 128 + 2) 0 ⟨0, 0, 0, [], []⟩

/-! ### The decoder (modelled from the spec)

Modelled from the spec: the dual Parquet reader is out of scope of the
excerpted sources ("the higher-level reader … is dual to this writer core
but is not separately specified here"); the hybrid-RLE stream grammar is
fixed by spec §4.3 and §6: a VLQ header whose low bit selects a bit-packed
literal run (`(count/8) << 1 | 1`, then `count/8` groups of 8 values of
`nbits` bits) or a repeated run (`count << 1`, then one little-endian
value of `nbits <= 8 ? 1 : 2` bytes). -/

/-- One parsed hybrid-RLE run. -/
inductive RleRun where
  | rpt (count : ℕ) (v : ℕ)
  | lit (groups : ℕ) (vs : List ℕ)
deriving DecidableEq, Repr

/-- The values a run stands for (padding zeros of a final literal group
are part of `vs` and carry no further meaning). -/
def denoteRun : RleRun → List ℕ
  | .rpt c v => List.replicate c v
  | .lit _ vs => vs

/-- The byte image of a run as the encoder writes it. -/
def serializeRun (nbits : ℕ) : RleRun → List ℕ
  | .rpt c v =>
    PageEnc.VlqEncode (2 * c) ++ [v % 256] ++ (if nbits > 8 then [v / 256 % 256] else [])
  | .lit g vs => (2 * g + 1) :: PackLiterals nbits vs

/-- Little-endian byte assembly. -/
def natOfBytes : List ℕ → ℕ
  | [] => 0
  | b :: bs => b + 256 * natOfBytes bs

/-- Unpack `count` little-endian bit fields of width `w` from a byte
sequence. -/
def unpackBits (w count : ℕ) (bytes : List ℕ) : List ℕ :=
  (List.range count).map fun i => natOfBytes bytes / 2 ^ (i * w) % 2 ^ w

/-- VLQ (unsigned LEB128) decoding: returns the value and remaining
bytes. -/
def decodeVlq : List ℕ → Option (ℕ × List ℕ)
  | [] => none
  | b :: rest =>
    if b < 0x80 then some (b, rest)
    else
      match decodeVlq rest with
      | some (v, r) => some (b % 0x80 + v * 0x80, r)
      | none => none

/-- Parse a hybrid-RLE byte stream into runs (fuel-driven; the byte length
is sufficient fuel). -/
def rleParse (nbits : ℕ) : ℕ → List ℕ → Option (List RleRun)
  | _, [] => some []
  | 0, _ :: _ => none
  | fuel + 1, b :: bs =>
    match decodeVlq (b :: bs) with
    | none => none
    | some (h, rest) =>
      if h % 2 = 1 then
        let groups := h / 2
        let nb := groups * nbits
        if rest.length < nb then none
        else
          match rleParse nbits fuel (rest.drop nb) with
          | some runs => some (.lit groups (unpackBits nbits (groups * 8) (rest.take nb)) :: runs)
          | none => none
      else
        let vb := if nbits > 8 then 2 else 1
        if rest.length < vb then none
        else
          let v := rest.getD 0 0 + if nbits > 8 then 256 * rest.getD 1 0 else 0
          match rleParse nbits fuel (rest.drop vb) with
          | some runs => some (.rpt (h / 2) v :: runs)
          | none => none

/-- Decode a hybrid-RLE byte stream to its value sequence. -/
def rleDecode (nbits : ℕ) (bytes : List ℕ) : Option (List ℕ) :=
  (rleParse nbits bytes.length bytes).map fun runs => runs.flatMap denoteRun

end Rle

namespace Rle

/-! ### Byte-level round-trip lemmas -/

lemma decodeVlq_vlqAux (rest : List ℕ) :
    ∀ f v, v ≤ f → decodeVlq (PageEnc.vlqAux f v ++ rest) = some (v, rest) := by
  intro f
  induction f with
  | zero =>
    intro v hv
    interval_cases v
    simp [PageEnc.vlqAux, decodeVlq]
  | succ f ih =>
    intro v hv
    by_cases h : v ≤ 0x7f
    · simp [PageEnc.vlqAux, h, decodeVlq, Nat.lt_succ_of_le h]
    · have h128 : 128 ≤ v := by omega
      have hdiv : v / 0x80 ≤ f := by
        have := Nat.div_lt_self (by omega : 0 < v) (by norm_num : 1 < 128)
        omega
      simp only [PageEnc.vlqAux, if_neg h, List.cons_append, decodeVlq]
      rw [if_neg (by omega), ih _ hdiv]
      simp only [Option.some.injEq, Prod.mk.injEq]
      exact ⟨by omega, trivial⟩

lemma decodeVlq_VlqEncode (v : ℕ) (rest : List ℕ) :
    decodeVlq (PageEnc.VlqEncode v ++ rest) = some (v, rest) :=
  decodeVlq_vlqAux rest v v le_rfl

lemma leBytes_length (k N : ℕ) : (PageEnc.leBytes k N).length = k := by
  induction k generalizing N with
  | zero => rfl
  | succ k ih => simp [PageEnc.leBytes, ih]

lemma natOfBytes_leBytes (k N : ℕ) (h : N < 256 ^ k) :
    natOfBytes (PageEnc.leBytes k N) = N := by
  induction k generalizing N with
  | zero => simp at h; simp [PageEnc.leBytes, natOfBytes, h]
  | succ k ih =>
    have : N / 256 < 256 ^ k := by
      rw [Nat.div_lt_iff_lt_mul (by norm_num)]
      calc N < 256 ^ (k + 1) := h
        _ = 256 ^ k * 256 := by ring
    simp [PageEnc.leBytes, natOfBytes, ih _ this]
    omega

lemma natOfChunks_lt (base : ℕ) (hb : 0 < base) (vs : List ℕ) (h : ∀ v ∈ vs, v < base) :
    natOfChunks base vs < base ^ vs.length := by
  induction vs with
  | nil => simp [natOfChunks]
  | cons v vs ih =>
    have hv : v < base := h v (List.mem_cons_self v vs)
    have hrest := ih fun w hw => h w (List.mem_cons_of_mem v hw)
    simp only [natOfChunks, List.length_cons, pow_succ]
    calc v + base * natOfChunks base vs
        ≤ (base - 1) + base * natOfChunks base vs := by omega
      _ < base * (natOfChunks base vs + 1) := by
          rw [Nat.mul_add, Nat.mul_one]; omega
      _ ≤ base * base ^ vs.length := by
          have : natOfChunks base vs + 1 ≤ base ^ vs.length := hrest
          exact Nat.mul_le_mul_left base this
      _ = base ^ vs.length * base := by ring

lemma natOfChunks_extract (base : ℕ) (hb : 1 < base) (vs : List ℕ)
    (h : ∀ v ∈ vs, v < base) :
    ∀ i < vs.length, natOfChunks base vs / base ^ i % base = vs.getD i 0 := by
  induction vs with
  | nil => intro i hi; simp at hi
  | cons v vs ih =>
    intro i hi
    cases i with
    | zero =>
      have hv : v < base := h v (List.mem_cons_self v vs)
      simp [natOfChunks, Nat.add_mul_mod_self_left, Nat.mod_eq_of_lt hv]
    | succ i =>
      have hv : v < base := h v (List.mem_cons_self v vs)
      have hdiv : natOfChunks base (v :: vs) / base = natOfChunks base vs := by
        simp only [natOfChunks]
        rw [Nat.add_mul_div_left _ _ (by omega), Nat.div_eq_of_lt hv, Nat.zero_add]
      rw [pow_succ', ← Nat.div_div_eq_div_mul, hdiv]
      exact ih (fun w hw => h w (List.mem_cons_of_mem v hw)) i (by simpa using Nat.lt_of_succ_lt_succ hi)

end Rle

namespace Rle

lemma vlqAux_ne_nil (f v : ℕ) : PageEnc.vlqAux f v ≠ [] := by
  cases f with
  | zero => simp [PageEnc.vlqAux]
  | succ f =>
    simp only [PageEnc.vlqAux]
    split <;> simp

lemma packLiterals_length (w g : ℕ) (vs : List ℕ) (hlen : vs.length = 8 * g) :
    (PackLiterals w vs).length = g * w := by
  rw [PackLiterals, leBytes_length, hlen,
    show 8 * g * w + 7 = 7 + g * w * 8 by ring]
  omega

/-- Bit-packing round trip: unpacking the packed image of `8 * g` in-range
values recovers them. -/
lemma unpackBits_PackLiterals (w g : ℕ) (hw : 1 ≤ w) (vs : List ℕ)
    (hlen : vs.length = 8 * g) (hv : ∀ v ∈ vs, v < 2 ^ w) :
    unpackBits w (8 * g) (PackLiterals w vs) = vs := by
  have hbase : 1 < 2 ^ w := by
    calc 1 < 2 ^ 1 := by norm_num
      _ ≤ 2 ^ w := Nat.pow_le_pow_right (by norm_num) hw
  have hN : natOfChunks (2 ^ w) vs < 2 ^ (vs.length * w) := by
    have := natOfChunks_lt (2 ^ w) (by omega) vs hv
    rwa [← pow_mul, mul_comm w vs.length] at this
  have hbytes : natOfBytes (PackLiterals w vs) = natOfChunks (2 ^ w) vs := by
    rw [PackLiterals]
    apply natOfBytes_leBytes
    calc natOfChunks (2 ^ w) vs < 2 ^ (vs.length * w) := hN
      _ ≤ 256 ^ ((vs.length * w + 7) / 8) := by
        rw [show (256 : ℕ) = 2 ^ 8 by norm_num, ← pow_mul]
        exact Nat.pow_le_pow_right (by norm_num) (by omega)
  apply List.ext_getElem
  · simp [unpackBits, hlen]
  · intro i hi1 hi2
    have hilen : i < vs.length := hi2
    simp only [unpackBits, List.getElem_map, List.getElem_range]
    rw [hbytes, show 2 ^ (i * w) = (2 ^ w) ^ i by rw [← pow_mul, mul_comm]]
    have := natOfChunks_extract (2 ^ w) hbase vs hv i hilen
    rw [this, List.getD_eq_getElem vs 0 hilen]

/-- Well-formedness of a run as the encoder produces it: repeat values fit
the bit width, literal runs hold exactly `8 * groups` in-range values with
at most `0x3f` groups. -/
def wfRun (nbits : ℕ) : RleRun → Prop
  | .rpt _ v => v < 2 ^ nbits
  | .lit g vs => vs.length = 8 * g ∧ g ≤ 0x3f ∧ ∀ v ∈ vs, v < 2 ^ nbits

lemma serializeRun_ne_nil (nbits : ℕ) (r : RleRun) : serializeRun nbits r ≠ [] := by
  cases r with
  | rpt c v =>
    simp only [serializeRun, PageEnc.VlqEncode]
    intro h
    exact vlqAux_ne_nil (2 * c) (2 * c) (List.append_eq_nil.mp (List.append_eq_nil.mp h).1).1
  | lit g vs => simp [serializeRun]

/-- Unfolding of one `rleParse` step once the VLQ header is known. -/
lemma rleParse_step (nbits f : ℕ) (bytes : List ℕ) (hne : bytes ≠ []) (h : ℕ)
    (rest : List ℕ) (hdec : decodeVlq bytes = some (h, rest)) :
    rleParse nbits (f + 1) bytes =
      if h % 2 = 1 then
        (if rest.length < h / 2 * nbits then none
         else
           match rleParse nbits f (rest.drop (h / 2 * nbits)) with
           | some runs =>
             some (.lit (h / 2) (unpackBits nbits (h / 2 * 8) (rest.take (h / 2 * nbits))) :: runs)
           | none => none)
      else
        (if rest.length < (if nbits > 8 then 2 else 1) then none
         else
           match rleParse nbits f (rest.drop (if nbits > 8 then 2 else 1)) with
           | some runs =>
             some (.rpt (h / 2)
               (rest.getD 0 0 + if nbits > 8 then 256 * rest.getD 1 0 else 0) :: runs)
           | none => none) := by
  cases bytes with
  | nil => exact absurd rfl hne
  | cons b bs => simp only [rleParse, hdec]

/-- Parsing the serialization of well-formed runs recovers them. -/
lemma rleParse_serialize (nbits : ℕ) (h1 : 1 ≤ nbits) (h16 : nbits ≤ 16) :
    ∀ (runs : List RleRun), (∀ r ∈ runs, wfRun nbits r) →
    ∀ fuel, (runs.flatMap (serializeRun nbits)).length ≤ fuel →
      rleParse nbits fuel (runs.flatMap (serializeRun nbits)) = some runs := by
  intro runs
  induction runs with
  | nil =>
    intro _ fuel _
    cases fuel <;> rfl
  | cons r rest ih =>
    intro hwf fuel hfuel
    have hwfr : wfRun nbits r := hwf r (List.mem_cons_self r rest)
    have hwfrest : ∀ x ∈ rest, wfRun nbits x := fun x hx => hwf x (List.mem_cons_of_mem r hx)
    have hser := serializeRun_ne_nil nbits r
    simp only [List.flatMap_cons] at hfuel ⊢
    have hlen1 : 0 < (serializeRun nbits r).length := List.length_pos.mpr hser
    obtain ⟨f, rfl⟩ : ∃ f, fuel = f + 1 := by
      cases fuel with
      | zero => rw [List.length_append] at hfuel; omega
      | succ f => exact ⟨f, rfl⟩
    have hrest_fuel : (rest.flatMap (serializeRun nbits)).length ≤ f := by
      rw [List.length_append] at hfuel
      omega
    have hne : serializeRun nbits r ++ rest.flatMap (serializeRun nbits) ≠ [] := by
      intro hcontra
      exact hser (List.append_eq_nil.mp hcontra).1
    cases r with
    | rpt c v =>
      have hv : v < 2 ^ nbits := hwfr
      have hv16 : v < 2 ^ 16 := lt_of_lt_of_le hv (Nat.pow_le_pow_right (by norm_num) h16)
      have hc2 : 2 * c % 2 = 0 := by omega
      have hcdiv : 2 * c / 2 = c := by omega
      by_cases h8 : nbits > 8
      · have hbytes : serializeRun nbits (.rpt c v) ++ rest.flatMap (serializeRun nbits) =
            PageEnc.VlqEncode (2 * c) ++
              (v % 256 :: v / 256 % 256 :: rest.flatMap (serializeRun nbits)) := by
          simp [serializeRun, h8]
        rw [hbytes] at hne ⊢
        rw [rleParse_step nbits f _ hne (2 * c) _ (decodeVlq_VlqEncode (2 * c) _)]
        rw [if_neg (by omega)]
        simp only [if_pos h8]
        rw [if_neg (by simp)]
        rw [show (v % 256 :: v / 256 % 256 :: rest.flatMap (serializeRun nbits)).drop 2 =
          rest.flatMap (serializeRun nbits) from rfl]
        rw [ih hwfrest f hrest_fuel]
        have : (v % 256 :: v / 256 % 256 :: rest.flatMap (serializeRun nbits)).getD 0 0 +
            256 * (v % 256 :: v / 256 % 256 :: rest.flatMap (serializeRun nbits)).getD 1 0 = v := by
          simp [List.getD]
          omega
        rw [this, hcdiv]
      · have hv8 : v < 256 := by
          have : (2 : ℕ) ^ nbits ≤ 2 ^ 8 := Nat.pow_le_pow_right (by norm_num) (by omega)
          omega
        have hbytes : serializeRun nbits (.rpt c v) ++ rest.flatMap (serializeRun nbits) =
            PageEnc.VlqEncode (2 * c) ++ (v % 256 :: rest.flatMap (serializeRun nbits)) := by
          simp [serializeRun, h8]
        rw [hbytes] at hne ⊢
        rw [rleParse_step nbits f _ hne (2 * c) _ (decodeVlq_VlqEncode (2 * c) _)]
        rw [if_neg (by omega)]
        simp only [if_neg h8]
        rw [if_neg (by simp)]
        rw [show (v % 256 :: rest.flatMap (serializeRun nbits)).drop 1 =
          rest.flatMap (serializeRun nbits) from rfl]
        rw [ih hwfrest f hrest_fuel]
        have : (v % 256 :: rest.flatMap (serializeRun nbits)).getD 0 0 + 0 = v := by
          simp [List.getD, Nat.mod_eq_of_lt hv8]
        rw [this, hcdiv]
    | lit g vs =>
      obtain ⟨hlen, hg, hvals⟩ := hwfr
      have hplen : (PackLiterals nbits vs).length = g * nbits := packLiterals_length nbits g vs hlen
      have hbytes : serializeRun nbits (.lit g vs) ++ rest.flatMap (serializeRun nbits) =
          (2 * g + 1) :: (PackLiterals nbits vs ++ rest.flatMap (serializeRun nbits)) := by
        simp [serializeRun]
      have hdec : decodeVlq ((2 * g + 1) :: (PackLiterals nbits vs ++
          rest.flatMap (serializeRun nbits))) =
          some (2 * g + 1, PackLiterals nbits vs ++ rest.flatMap (serializeRun nbits)) := by
        simp [decodeVlq, show 2 * g + 1 < 0x80 by omega]
      rw [hbytes, rleParse_step nbits f _ (by simp) (2 * g + 1) _ hdec]
      rw [if_pos (by omega)]
      have hgdiv : (2 * g + 1) / 2 = g := by omega
      simp only [hgdiv]
      rw [if_neg (by rw [List.length_append, hplen]; omega)]
      rw [show (PackLiterals nbits vs ++ rest.flatMap (serializeRun nbits)).drop (g * nbits) =
        rest.flatMap (serializeRun nbits) from by rw [← hplen]; exact List.drop_left _ _]
      rw [ih hwfrest f hrest_fuel]
      rw [show (PackLiterals nbits vs ++ rest.flatMap (serializeRun nbits)).take (g * nbits) =
        PackLiterals nbits vs from by rw [← hplen]; exact List.take_left _ _]
      rw [show g * 8 = 8 * g by ring, unpackBits_PackLiterals nbits g h1 vs hlen hvals]

end Rle

namespace Rle

/-! ### Encoder invariant -/

/-- The number of input positions covered by the currently open run: an
odd `rle_run` is a literal run of `rle_run >> 1` complete groups of 8, an
even one a repeat run of `rle_run >> 1` values. -/
def pending (s : RleState) : ℕ :=
  if s.rle_run % 2 = 1 then s.rle_run / 2 * 8 else s.rle_run / 2

/-- The encoder invariant over the input stream `l`: the closed output
bytes serialize a well-formed run list that denotes exactly the consumed
prefix of `l` up to the open run; an open literal run stages the packed
image of the covered window with a header that still fits one byte; an
open repeat run covers a constant window equal to `run_val`. -/
def EncInv (l : List ℕ) (nbits : ℕ) (s : RleState) : Prop :=
  ∃ runs : List RleRun,
    s.out = runs.flatMap (serializeRun nbits) ∧
    (∀ r ∈ runs, wfRun nbits r) ∧
    pending s ≤ s.rle_pos ∧
    s.rle_pos ≤ l.length ∧
    runs.flatMap denoteRun = l.take (s.rle_pos - pending s) ∧
    (s.rle_run % 2 = 1 →
      3 ≤ s.rle_run ∧ s.rle_run ≤ 0x7f ∧
      s.lit = PackLiterals nbits ((l.drop (s.rle_pos - pending s)).take (pending s))) ∧
    (s.rle_run % 2 = 0 →
      s.lit = [] ∧
      ∀ i, s.rle_pos - pending s ≤ i → i < s.rle_pos → l.getD i 0 = s.run_val)

/-- The final encoder state after the flushed last batch: the output
serializes well-formed runs denoting the whole input followed by fewer
than 8 padding zeros (the zero-fill of the last literal group). -/
def FinalOut (l : List ℕ) (nbits : ℕ) (s : RleState) : Prop :=
  ∃ (runs : List RleRun) (pad : ℕ),
    s.out = runs.flatMap (serializeRun nbits) ∧
    (∀ r ∈ runs, wfRun nbits r) ∧
    runs.flatMap denoteRun = l ++ List.replicate pad 0 ∧
    pad < 8

lemma countLeadingAux_le (p : ℕ → Bool) : ∀ cap i, countLeadingAux cap i p ≤ cap := by
  intro cap
  induction cap with
  | zero => intro i; simp [countLeadingAux]
  | succ cap ih =>
    intro i
    simp only [countLeadingAux]
    split
    · have := ih (i + 1)
      omega
    · omega

lemma countLeadingAux_true (p : ℕ → Bool) :
    ∀ cap i j, j < countLeadingAux cap i p → p (i + j) = true := by
  intro cap
  induction cap with
  | zero => intro i j h; simp [countLeadingAux] at h
  | succ cap ih =>
    intro i j h
    simp only [countLeadingAux] at h
    by_cases hp : p i = true
    · rw [if_pos hp] at h
      cases j with
      | zero => simpa using hp
      | succ j =>
        have := ih (i + 1) j (by omega)
        simpa [Nat.add_assoc, Nat.add_comm 1 j] using this
    · rw [if_neg hp] at h
      omega

lemma countLeading_le (cap : ℕ) (p : ℕ → Bool) : countLeading cap p ≤ cap :=
  countLeadingAux_le p cap 0

lemma countLeading_true (cap : ℕ) (p : ℕ → Bool) :
    ∀ j < countLeading cap p, p j = true := by
  intro j hj
  have := countLeadingAux_true p cap 0 j hj
  simpa using this

lemma countLeading_pos (cap : ℕ) (p : ℕ → Bool) (hcap : 0 < cap) (h0 : p 0 = true) :
    0 < countLeading cap p := by
  cases cap with
  | zero => omega
  | succ cap =>
    simp only [countLeading, countLeadingAux, h0, if_pos]
    omega

/-- `(l.drop p).take k` read off by `getD`. -/
lemma slice_eq_map (l : List ℕ) (p k : ℕ) (h : p + k ≤ l.length) :
    (l.drop p).take k = (List.range k).map fun t => l.getD (p + t) 0 := by
  apply List.ext_getElem
  · simp
    omega
  · intro i hi1 hi2
    simp only [List.getElem_take, List.getElem_drop, List.getElem_map, List.getElem_range]
    rw [List.getD_eq_getElem l 0 (by simp at hi1; omega)]

lemma slice_replicate (l : List ℕ) (p k v : ℕ) (h : p + k ≤ l.length)
    (hv : ∀ i < k, l.getD (p + i) 0 = v) :
    (l.drop p).take k = List.replicate k v := by
  rw [slice_eq_map l p k h]
  apply List.ext_getElem
  · simp
  · intro i hi1 hi2
    simp only [List.getElem_map, List.getElem_range, List.getElem_replicate]
    exact hv i (by simpa using hi1)

lemma chain_const (f : ℕ → ℕ) (p c : ℕ)
    (h : ∀ j < c, f (p + j) = f (p + j + 1)) :
    ∀ j, j ≤ c → f (p + j) = f p := by
  intro j
  induction j with
  | zero => intro _; rfl
  | succ j ih =>
    intro hj
    have h1 := h j (by omega)
    have h2 := ih (by omega)
    calc f (p + (j + 1)) = f (p + j + 1) := rfl
      _ = f (p + j) := h1.symm
      _ = f p := h2

lemma natOfChunks_append (base : ℕ) (a b : List ℕ) :
    natOfChunks base (a ++ b) = natOfChunks base a + base ^ a.length * natOfChunks base b := by
  induction a with
  | nil => simp [natOfChunks]
  | cons x xs ih =>
    simp only [List.cons_append, natOfChunks, List.length_cons, pow_succ]
    rw [show xs.append b = xs ++ b from rfl, ih]
    ring

lemma leBytes_append (k1 k2 x y : ℕ) (hx : x < 256 ^ k1) :
    PageEnc.leBytes (k1 + k2) (x + 256 ^ k1 * y) =
      PageEnc.leBytes k1 x ++ PageEnc.leBytes k2 y := by
  induction k1 generalizing x with
  | zero =>
    simp only [pow_zero, one_mul] at hx ⊢
    interval_cases x
    simp [PageEnc.leBytes]
  | succ k1 ih =>
    have hb : (x + 256 ^ (k1 + 1) * y) % 256 = x % 256 := by
      rw [pow_succ, show 256 ^ k1 * 256 * y = 256 * (256 ^ k1 * y) by ring]
      omega
    have hd : (x + 256 ^ (k1 + 1) * y) / 256 = x / 256 + 256 ^ k1 * y := by
      rw [pow_succ, show 256 ^ k1 * 256 * y = 256 ^ k1 * y * 256 by ring]
      rw [Nat.add_mul_div_right _ _ (by norm_num : (0:ℕ) < 256)]
    have hxd : x / 256 < 256 ^ k1 := by
      rw [Nat.div_lt_iff_lt_mul (by norm_num : (0:ℕ) < 256)]
      calc x < 256 ^ (k1 + 1) := hx
        _ = 256 ^ k1 * 256 := by rw [pow_succ]
    rw [show k1 + 1 + k2 = (k1 + k2) + 1 by ring]
    show (x + 256 ^ (k1 + 1) * y) % 256 ::
      PageEnc.leBytes (k1 + k2) ((x + 256 ^ (k1 + 1) * y) / 256) = _
    rw [hb, hd, ih _ hxd]
    rfl

lemma PackLiterals_append (w ga gb : ℕ) (hw : 1 ≤ w) (a b : List ℕ)
    (ha : a.length = 8 * ga) (hb : b.length = 8 * gb) (hva : ∀ v ∈ a, v < 2 ^ w) :
    PackLiterals w (a ++ b) = PackLiterals w a ++ PackLiterals w b := by
  have hNa : natOfChunks (2 ^ w) a < 256 ^ (ga * w) := by
    have := natOfChunks_lt (2 ^ w) (by positivity) a hva
    calc natOfChunks (2 ^ w) a < (2 ^ w) ^ a.length := this
      _ = 256 ^ (ga * w) := by
        rw [ha, ← pow_mul, show (256 : ℕ) = 2 ^ 8 by norm_num, ← pow_mul]
        ring_nf
  have hlen : (a ++ b).length = 8 * (ga + gb) := by
    rw [List.length_append, ha, hb]; ring
  have hpow : (2 ^ w) ^ a.length = 256 ^ (ga * w) := by
    rw [ha, ← pow_mul, show (256 : ℕ) = 2 ^ 8 by norm_num, ← pow_mul]
    ring_nf
  rw [PackLiterals, PackLiterals, PackLiterals, natOfChunks_append, hpow]
  rw [hlen, ha, hb]
  rw [show 8 * (ga + gb) * w + 7 = 7 + (ga + gb) * w * 8 by ring,
    show 8 * ga * w + 7 = 7 + ga * w * 8 by ring,
    show 8 * gb * w + 7 = 7 + gb * w * 8 by ring]
  have e1 : (7 + (ga + gb) * w * 8) / 8 = (ga + gb) * w := by omega
  have e2 : (7 + ga * w * 8) / 8 = ga * w := by omega
  have e3 : (7 + gb * w * 8) / 8 = gb * w := by omega
  rw [e1, e2, e3, show (ga + gb) * w = ga * w + gb * w by ring]
  exact leBytes_append (ga * w) (gb * w) _ _ hNa

end Rle

namespace Rle

/-- Extract the per-position facts from the repeat-continuation ballot
count. -/
lemma repeatCount_facts (l : List ℕ) (numvals : ℕ) (s : RleState) :
    let c := countLeading 128 fun t =>
      decide (s.rle_pos + t < numvals) && decide ((fun i => l.getD i 0) (s.rle_pos + t) = s.run_val)
    c ≤ 128 ∧ ∀ j < c, s.rle_pos + j < numvals ∧ l.getD (s.rle_pos + j) 0 = s.run_val := by
  intro c
  refine ⟨countLeading_le _ _, fun j hj => ?_⟩
  have := countLeading_true _ _ j hj
  simpa using this

/-- A value read from a consumed position of the stream is bounded like
every stream value. -/
lemma getD_lt (l : List ℕ) (nbits : ℕ) (hvals : ∀ v ∈ l, v < 2 ^ nbits) (i : ℕ)
    (hi : i < l.length) : l.getD i 0 < 2 ^ nbits := by
  rw [List.getD_eq_getElem l 0 hi]
  exact hvals _ (List.getElem_mem hi)

/-- Invariant preservation through the repeat-run branch: the step always
continues, keeps the invariant, and decreases the loop measure. -/
lemma repeatModeStep_spec (l : List ℕ) (nbits numvals : ℕ) (flush : Bool) (s : RleState)
    (hvals : ∀ v ∈ l, v < 2 ^ nbits) (hnum : numvals ≤ l.length)
    (hinv : EncInv l nbits s) (hpos : s.rle_pos ≤ numvals)
    (hrun : 0 < s.rle_run ∧ s.rle_run % 2 = 0)
    (hcond : s.rle_pos < numvals ∨ (flush = true ∧ s.rle_run ≠ 0)) :
    EncInv l nbits (repeatModeStep (fun i => l.getD i 0) numvals nbits flush s).1 ∧
    (repeatModeStep (fun i => l.getD i 0) numvals nbits flush s).1.rle_pos ≤ numvals ∧
    ((repeatModeStep (fun i => l.getD i 0) numvals nbits flush s).1.rle_run % 2 = 1 →
      (repeatModeStep (fun i => l.getD i 0) numvals nbits flush s).1.rle_pos < numvals) ∧
    (repeatModeStep (fun i => l.getD i 0) numvals nbits flush s).2 = true ∧
    2 * (numvals - (repeatModeStep (fun i => l.getD i 0) numvals nbits flush s).1.rle_pos) +
        (if (repeatModeStep (fun i => l.getD i 0) numvals nbits flush s).1.rle_run ≠ 0
          then 1 else 0) <
      2 * (numvals - s.rle_pos) + (if s.rle_run ≠ 0 then 1 else 0) := by
  obtain ⟨runs, hout, hwf, hpend, hposl, hden, hoddc, hevenc⟩ := hinv
  obtain ⟨hlit, hwin⟩ := hevenc hrun.2
  have hpendeq : pending s = s.rle_run / 2 := by
    rw [pending, if_neg (by omega)]
  obtain ⟨hcle, hctrue⟩ := repeatCount_facts l numvals s
  simp only [repeatModeStep]
  set c := countLeading 128 fun t =>
    decide (s.rle_pos + t < numvals) && decide ((fun i => l.getD i 0) (s.rle_pos + t) = s.run_val)
    with hc
  have hposc : s.rle_pos + c ≤ numvals := by
    rcases Nat.eq_zero_or_pos c with h0 | h0
    · omega
    · have := (hctrue (c - 1) (by omega)).1
      omega
  have hwin' : ∀ i, s.rle_pos - pending s ≤ i → i < s.rle_pos + c → l.getD i 0 = s.run_val := by
    intro i h1 h2
    by_cases hi : i < s.rle_pos
    · exact hwin i h1 hi
    · have := (hctrue (i - s.rle_pos) (by omega)).2
      rwa [show s.rle_pos + (i - s.rle_pos) = i by omega] at this
  have hp2 : (s.rle_run + c * 2) / 2 = s.rle_run / 2 + c := by omega
  by_cases hemit : c < min (numvals - s.rle_pos) 128 ∨ (flush = true ∧ s.rle_pos + c = numvals)
  · rw [if_pos hemit]
    dsimp only
    have hrv : s.run_val < 2 ^ nbits := by
      have := hwin (s.rle_pos - 1) (by omega) (by omega)
      rw [← this]
      exact getD_lt l nbits hvals _ (by omega)
    refine ⟨⟨runs ++ [.rpt ((s.rle_run + c * 2) / 2) s.run_val], ?_, ?_, ?_, ?_, ?_, ?_, ?_⟩,
      by omega, by simp, rfl, ?_⟩
    · dsimp only
      simp only [List.flatMap_append, List.flatMap_cons, List.flatMap_nil, List.append_nil,
        hout, serializeRun]
      rw [show 2 * ((s.rle_run + c * 2) / 2) = s.rle_run + c * 2 by omega]
      simp [List.append_assoc]
    · intro r hr
      rcases List.mem_append.mp hr with hr | hr
      · exact hwf r hr
      · rw [List.mem_singleton.mp hr]
        exact hrv
    · simp [pending]
    · dsimp only
      omega
    · simp only [pending]
      norm_num
      simp only [List.flatMap_append, List.flatMap_cons, List.flatMap_nil, List.append_nil,
        denoteRun, hden, hp2]
      rw [show s.rle_pos + c = (s.rle_pos - pending s) + (s.rle_run / 2 + c) by
        rw [hpendeq] at hpend ⊢; omega]
      rw [List.take_add]
      congr 1
      symm
      apply slice_replicate
      · rw [hpendeq] at hpend ⊢
        omega
      · intro i hi
        apply hwin'
        · omega
        · rw [hpendeq] at hpend ⊢
          omega
    · intro h; simp at h
    · intro _
      refine ⟨hlit, ?_⟩
      intro i h1 h2
      exfalso
      rw [pending] at h1
      dsimp only at h1 h2
      norm_num at h1
      omega
    · simp only [ne_eq, not_true_eq_false, if_false, if_pos (by omega : s.rle_run ≠ 0)]
      omega
  · rw [if_neg hemit]
    dsimp only
    push_neg at hemit
    have hcmax : c ≤ min (numvals - s.rle_pos) 128 := by
      rcases Nat.eq_zero_or_pos c with h0 | h0
      · omega
      · have := (hctrue (c - 1) (by omega)).1
        omega
    have hceq : c = min (numvals - s.rle_pos) 128 := by omega
    have hposlt : s.rle_pos < numvals := by
      rcases hcond with h | ⟨hf, _⟩
      · exact h
      · by_contra hge
        have : s.rle_pos = numvals := by omega
        have hc0 : c = 0 := by omega
        exact absurd (by omega : s.rle_pos + c = numvals) (hemit.2 hf)
    have hc1 : 1 ≤ c := by omega
    have hpend' : pending { s with rle_pos := s.rle_pos + c, rle_run := s.rle_run + c * 2 } =
        s.rle_run / 2 + c := by
      rw [pending]
      dsimp only
      rw [if_neg (by omega), hp2]
    refine ⟨⟨runs, hout, hwf, ?_, ?_, ?_, ?_, ?_⟩, by omega, ?_, rfl, ?_⟩
    · rw [hpend']
      dsimp only
      rw [hpendeq] at hpend
      omega
    · dsimp only
      omega
    · rw [hpend', hden]
      dsimp only
      congr 1
      rw [hpendeq] at hpend ⊢
      omega
    · intro h
      dsimp only at h
      omega
    · intro _
      refine ⟨hlit, ?_⟩
      intro i h1 h2
      rw [hpend'] at h1
      dsimp only at h1 h2
      apply hwin'
      · rw [hpendeq]
        rw [hpendeq] at hpend
        omega
      · omega
    · intro h
      omega
    · rw [if_pos (by omega : s.rle_run + c * 2 ≠ 0), if_pos (by omega : s.rle_run ≠ 0)]
      omega

end Rle

namespace Rle

/-- The run-detection scan abstracted over its pair-equality predicate
(the shape shared with `litRunScan`). -/
def scanPair (p : ℕ → Bool) (maxvals needed : ℕ) : ℕ × ℕ :=
  let runStartFound := (List.range 32).find? fun t =>
    (List.range needed).all fun i => decide (8 * t + i < 128) && p (8 * t + i)
  let rle_run_start := match runStartFound with
    | some t => min (8 * t) maxvals
    | none => maxvals
  let rpt_len :=
    if rle_run_start < maxvals then
      countLeading (128 - rle_run_start) fun i => p (rle_run_start + i)
    else 0
  (rle_run_start, min rpt_len (maxvals - rle_run_start))

/-- `litRunScan` is `scanPair` at the stream's pair-equality predicate. -/
lemma litRunScan_eq (vals : ℕ → ℕ) (numvals nbits : ℕ) (s : RleState) :
    litRunScan vals numvals nbits s =
      scanPair
        (fun t => decide (s.rle_pos + t + 1 < numvals) &&
          decide (vals (s.rle_pos + t) = vals (s.rle_pos + t + 1)))
        (min (numvals - s.rle_pos) 128) (kRleRunNeeded.getD (nbits - 1) 0) := rfl

/-- What the run-detection scan guarantees: the literal prefix and the
repeat run fit in the window; a nonzero repeat run starts at a multiple
of 8 with every covered pair equal; a zero repeat run means the literal
prefix is the whole window. -/
lemma scanPair_spec (p : ℕ → Bool) (maxvals needed : ℕ) (hneed : 0 < needed)
    (hmv : maxvals ≤ 128) :
    (scanPair p maxvals needed).1 ≤ maxvals ∧
    (scanPair p maxvals needed).1 + (scanPair p maxvals needed).2 ≤ maxvals ∧
    ((scanPair p maxvals needed).2 ≠ 0 → (scanPair p maxvals needed).1 % 8 = 0 ∧
      ∀ j < (scanPair p maxvals needed).2, p ((scanPair p maxvals needed).1 + j) = true) ∧
    ((scanPair p maxvals needed).2 = 0 → (scanPair p maxvals needed).1 = maxvals) := by
  simp only [scanPair]
  cases hf : (List.range 32).find? fun t =>
      (List.range needed).all fun i => decide (8 * t + i < 128) && p (8 * t + i) with
  | none =>
    dsimp only
    rw [if_neg (lt_irrefl maxvals)]
    refine ⟨le_refl _, by simp, by simp, fun _ => rfl⟩
  | some t =>
    dsimp only
    have hft := List.find?_some hf
    simp only [List.all_eq_true, List.mem_range, Bool.and_eq_true, decide_eq_true_eq] at hft
    by_cases hlt : min (8 * t) maxvals < maxvals
    · have h8t : 8 * t < maxvals := by omega
      have hm8 : min (8 * t) maxvals = 8 * t := by omega
      rw [hm8, if_pos h8t]
      have hp0 : p (8 * t + 0) = true := (hft 0 hneed).2
      have hposcl : 0 < countLeading (128 - 8 * t) fun i => p (8 * t + i) :=
        countLeading_pos _ _ (by omega) hp0
      refine ⟨by omega, by omega, ?_, ?_⟩
      · intro _
        refine ⟨by omega, ?_⟩
        intro j hj
        have hj' : j < countLeading (128 - 8 * t) fun i => p (8 * t + i) := by omega
        exact countLeading_true _ _ j hj'
      · intro h2
        exfalso
        omega
    · have hm8 : min (8 * t) maxvals = maxvals := by omega
      rw [hm8, if_neg (lt_irrefl maxvals)]
      refine ⟨le_refl _, by simp, by simp, fun _ => rfl⟩

end Rle

namespace Rle

lemma slice_length (l : List ℕ) (a k : ℕ) (h : a + k ≤ l.length) :
    ((l.drop a).take k).length = k := by
  simp [List.length_take, List.length_drop]
  omega

lemma slice_mem (l : List ℕ) (a k : ℕ) (v : ℕ) (hv : v ∈ (l.drop a).take k) : v ∈ l :=
  List.mem_of_mem_drop (List.mem_of_mem_take hv)

lemma slice_split (l : List ℕ) (a m k : ℕ) :
    (l.drop a).take (m + k) = (l.drop a).take m ++ (l.drop (a + m)).take k := by
  rw [List.take_add, List.drop_drop]

/-- Closing the open odd literal run (`closeLit`, the body of
page_enc.cu lines 653-663) preserves the encoder invariant with the run
reset. -/
lemma closeLit_spec (l : List ℕ) (nbits : ℕ) (s : RleState)
    (hvals : ∀ v ∈ l, v < 2 ^ nbits)
    (hinv : EncInv l nbits s) (hodd : s.rle_run % 2 = 1) :
    EncInv l nbits (closeLit s) ∧ (closeLit s).rle_pos = s.rle_pos ∧
      (closeLit s).rle_run = 0 ∧ (closeLit s).lit = [] := by
  obtain ⟨runs, hout, hwf, hpend, hposl, hden, hoddc, hevenc⟩ := hinv
  obtain ⟨hge3, hle7f, hlit⟩ := hoddc hodd
  have hpendeq : pending s = s.rle_run / 2 * 8 := by
    rw [pending, if_pos hodd]
  refine ⟨⟨runs ++ [.lit (s.rle_run / 2) ((l.drop (s.rle_pos - pending s)).take (pending s))],
    ?_, ?_, ?_, ?_, ?_, ?_, ?_⟩, rfl, rfl, rfl⟩
  · simp only [closeLit, List.flatMap_append, List.flatMap_cons, List.flatMap_nil,
      List.append_nil, hout, serializeRun, hlit]
    rw [show 2 * (s.rle_run / 2) + 1 = s.rle_run by omega]
    simp [List.append_assoc]
  · intro r hr
    rcases List.mem_append.mp hr with hr | hr
    · exact hwf r hr
    · rw [List.mem_singleton.mp hr]
      refine ⟨?_, by omega, ?_⟩
      · rw [slice_length l _ _ (by omega), hpendeq]
        omega
      · intro v hv
        exact hvals v (slice_mem l _ _ v hv)
  · simp [closeLit, pending]
  · simpa [closeLit] using hposl
  · simp only [closeLit, List.flatMap_append, List.flatMap_cons, List.flatMap_nil,
      List.append_nil, denoteRun, hden, pending, hodd]
    norm_num
    rw [← List.take_add]
    congr 1
    rw [pending, if_pos hodd] at hpend
    omega
  · intro h
    simp only [closeLit] at h
    omega
  · intro _
    refine ⟨rfl, ?_⟩
    intro i h1 h2
    exfalso
    simp only [closeLit, pending] at h1 h2
    norm_num at h1
    omega

end Rle

namespace Rle

/-- The zero-fill payload map collapses to a stream slice when every
packed position is below `numvals`. -/
lemma payload_eq_slice (l : List ℕ) (numvals pos k : ℕ) (h : pos + k ≤ numvals)
    (hlen : numvals ≤ l.length) :
    ((List.range k).map fun t => if pos + t < numvals then l.getD (pos + t) 0 else 0) =
      (l.drop pos).take k := by
  rw [slice_eq_map l pos k (by omega)]
  apply List.map_congr_left
  intro t ht
  simp only [List.mem_range] at ht
  rw [if_pos (by omega)]

/-- Extending the open literal run by `d8` exact groups (the
`lit_div8 ≠ 0` arm of the packing sub-block when no zero padding is
needed) preserves the encoder invariant. -/
lemma packExtend_spec (l : List ℕ) (nbits numvals d8 : ℕ) (s : RleState)
    (pos' run' : ℕ) (lit' : List ℕ)
    (hnb : 1 ≤ nbits) (hvals : ∀ v ∈ l, v < 2 ^ nbits) (hnum : numvals ≤ l.length)
    (hinv : EncInv l nbits s)
    (hrunok : s.rle_run = 0 ∨ s.rle_run % 2 = 1)
    (hd8 : 1 ≤ d8)
    (hfit : s.rle_pos + d8 * 8 ≤ numvals)
    (hpos' : pos' = s.rle_pos + d8 * 8)
    (hodd' : run' % 2 = 1)
    (hrun2 : run' = s.rle_run + d8 * 2 ∨ run' = s.rle_run + d8 * 2 + 1)
    (hr2 : run' ≤ 0x7f)
    (hlit' : lit' = s.lit ++ PackLiterals nbits ((l.drop s.rle_pos).take (d8 * 8))) :
    EncInv l nbits ⟨pos', run', s.run_val, s.out, lit'⟩ := by
  obtain ⟨runs, hout, hwf, hpend, hposl, hden, hoddc, hevenc⟩ := hinv
  have hpend' : pending ⟨pos', run', s.run_val, s.out, lit'⟩ = run' / 2 * 8 := by
    rw [pending, if_pos hodd']
  have hslice_b : ((l.drop s.rle_pos).take (d8 * 8)).length = 8 * d8 := by
    rw [slice_length l _ _ (by omega)]
    ring
  rcases hrunok with h0 | hodd1
  · obtain ⟨hlit0, _⟩ := hevenc (by omega)
    have hp0 : pending s = 0 := by
      rw [pending, if_neg (by omega), h0]
    have hrunval : run' = d8 * 2 + 1 := by
      rcases hrun2 with h | h <;> omega
    refine ⟨runs, hout, hwf, ?_, ?_, ?_, ?_, ?_⟩
    · rw [hpend']
      dsimp only
      omega
    · dsimp only
      omega
    · rw [hpend', hden, hp0]
      dsimp only
      congr 1
      omega
    · intro _
      refine ⟨by dsimp only; omega, hr2, ?_⟩
      rw [hpend']
      dsimp only
      rw [hlit', hlit0, List.nil_append]
      rw [show run' / 2 * 8 = d8 * 8 by omega, show pos' - d8 * 8 = s.rle_pos by omega]
    · intro h
      dsimp only at h
      omega
  · obtain ⟨h3, h7f, hlitold⟩ := hoddc hodd1
    have hpodd : pending s = s.rle_run / 2 * 8 := by
      rw [pending, if_pos hodd1]
    rw [hpodd] at hpend hden hlitold
    have hrunval : run' = s.rle_run + d8 * 2 := by
      rcases hrun2 with h | h <;> omega
    have hslice_a : ((l.drop (s.rle_pos - s.rle_run / 2 * 8)).take (s.rle_run / 2 * 8)).length =
        8 * (s.rle_run / 2) := by
      rw [slice_length l _ _ (by omega)]
      ring
    refine ⟨runs, hout, hwf, ?_, ?_, ?_, ?_, ?_⟩
    · rw [hpend']
      dsimp only
      omega
    · dsimp only
      omega
    · rw [hpend', hden]
      dsimp only
      congr 1
      omega
    · intro _
      refine ⟨by dsimp only; omega, hr2, ?_⟩
      rw [hpend']
      dsimp only
      rw [hlit', hlitold]
      rw [show run' / 2 * 8 = s.rle_run / 2 * 8 + d8 * 8 by omega,
        show pos' - (s.rle_run / 2 * 8 + d8 * 8) = s.rle_pos - s.rle_run / 2 * 8 by omega]
      rw [slice_split l _ (s.rle_run / 2 * 8) (d8 * 8),
        show s.rle_pos - s.rle_run / 2 * 8 + s.rle_run / 2 * 8 = s.rle_pos by omega]
      rw [PackLiterals_append nbits (s.rle_run / 2) d8 hnb _ _ hslice_a hslice_b]
      intro v hv
      exact hvals v (slice_mem l _ _ v hv)
    · intro h
      dsimp only at h
      omega

end Rle

namespace Rle

/-- At the flushed end of input the zero-fill payload map splits into the
remaining stream slice followed by the zero padding of the last group. -/
lemma payload_split (l : List ℕ) (numvals pos k : ℕ) (hk : numvals ≤ pos + k)
    (hpos : pos ≤ numvals) (hlen : numvals ≤ l.length) :
    ((List.range k).map fun t => if pos + t < numvals then l.getD (pos + t) 0 else 0) =
      (l.drop pos).take (numvals - pos) ++ List.replicate (k - (numvals - pos)) 0 := by
  have hslen : ((l.drop pos).take (numvals - pos)).length = numvals - pos :=
    slice_length l _ _ (by omega)
  apply List.ext_getElem
  · simp only [List.length_map, List.length_range, List.length_append, hslen,
      List.length_replicate]
    omega
  · intro i hi1 hi2
    simp only [List.length_map, List.length_range] at hi1
    simp only [List.getElem_map, List.getElem_range]
    by_cases hcase : i < numvals - pos
    · rw [List.getElem_append_left (by omega)]
      rw [if_pos (by omega)]
      simp only [List.getElem_take, List.getElem_drop]
      rw [List.getD_eq_getElem l 0 (by omega)]
    · rw [List.getElem_append_right (by omega)]
      rw [if_neg (by omega)]
      simp [List.getElem_replicate]

end Rle

namespace Rle

lemma PackLiterals_nil (w : ℕ) : PackLiterals w [] = [] := by
  simp [PackLiterals, natOfChunks, PageEnc.leBytes]

/-- The padded pack-and-close at the flushed end of input (pack with the
`+7` rounding followed by the forced `rle_run >= 0x03` close) turns the
encoder invariant into the final-output shape: everything consumed, run
reset, and fewer than 8 zero-padding values at the end. -/
lemma flushClose_spec (l : List ℕ) (nbits numvals lit0 d8 : ℕ) (s : RleState)
    (pos' run' : ℕ) (lit1 : List ℕ)
    (hnb : 1 ≤ nbits) (hvals : ∀ v ∈ l, v < 2 ^ nbits) (hnum : numvals = l.length)
    (hinv : EncInv l nbits s)
    (hrunok : s.rle_run = 0 ∨ s.rle_run % 2 = 1)
    (hlit0 : 1 ≤ lit0) (hend : s.rle_pos + lit0 = numvals)
    (hd8 : d8 = (lit0 + 7) / 8)
    (hpos' : pos' = numvals)
    (hodd' : run' % 2 = 1)
    (hrun2 : run' = s.rle_run + d8 * 2 ∨ run' = s.rle_run + d8 * 2 + 1)
    (hr2 : run' ≤ 0x7f)
    (hlit1 : lit1 = s.lit ++ PackLiterals nbits ((List.range (d8 * 8)).map fun t =>
      if s.rle_pos + t < numvals then l.getD (s.rle_pos + t) 0 else 0)) :
    FinalOut l nbits (closeLit ⟨pos', run', s.run_val, s.out, lit1⟩) ∧
      (closeLit ⟨pos', run', s.run_val, s.out, lit1⟩).rle_run = 0 ∧
      (closeLit ⟨pos', run', s.run_val, s.out, lit1⟩).rle_pos = numvals ∧
      (closeLit ⟨pos', run', s.run_val, s.out, lit1⟩).lit = [] := by
  obtain ⟨runs, hout, hwf, hpend, hposl, hden, hoddc, hevenc⟩ := hinv
  have hpad8 : lit0 ≤ d8 * 8 ∧ d8 * 8 < lit0 + 8 ∧ 1 ≤ d8 := by omega
  have hwin : s.lit = PackLiterals nbits ((l.drop (s.rle_pos - pending s)).take (pending s)) ∧
      pending s % 8 = 0 ∧ run' / 2 * 8 = pending s + d8 * 8 ∧ 3 ≤ run' := by
    rcases hrunok with h0 | hodd1
    · obtain ⟨hlit0', _⟩ := hevenc (by omega)
      have hp0 : pending s = 0 := by rw [pending, if_neg (by omega), h0]
      rw [hp0, hlit0']
      refine ⟨by simp [PackLiterals_nil], by omega, by omega, by omega⟩
    · obtain ⟨h3, h7f, hlitold⟩ := hoddc hodd1
      have hpodd : pending s = s.rle_run / 2 * 8 := by rw [pending, if_pos hodd1]
      rw [hpodd]
      exact ⟨by rw [← hpodd]; exact hlitold, by omega, by omega, by omega⟩
  obtain ⟨hlitw, hpnd8, hr2', h3'⟩ := hwin
  have hpayload : ((List.range (d8 * 8)).map fun t =>
      if s.rle_pos + t < numvals then l.getD (s.rle_pos + t) 0 else 0) =
      (l.drop s.rle_pos).take lit0 ++ List.replicate (d8 * 8 - lit0) 0 := by
    rw [payload_split l numvals s.rle_pos (d8 * 8) (by omega) (by omega) (by omega)]
    rw [show numvals - s.rle_pos = lit0 by omega]
  have hwinlen : ((l.drop (s.rle_pos - pending s)).take (pending s)).length =
      8 * (pending s / 8) := by
    rw [slice_length l _ _ (by omega)]
    omega
  have hrestlen : ((l.drop s.rle_pos).take lit0 ++ List.replicate (d8 * 8 - lit0) 0).length
      = 8 * d8 := by
    rw [List.length_append, slice_length l _ _ (by omega), List.length_replicate]
    omega
  refine ⟨⟨runs ++ [.lit (run' / 2) ((l.drop (s.rle_pos - pending s)).take (pending s) ++
      ((l.drop s.rle_pos).take lit0 ++ List.replicate (d8 * 8 - lit0) 0))],
      d8 * 8 - lit0, ?_, ?_, ?_, by omega⟩, rfl, hpos', rfl⟩
  · simp only [closeLit, List.flatMap_append, List.flatMap_cons, List.flatMap_nil,
      List.append_nil, serializeRun, hout, hlit1, hlitw, hpayload]
    rw [show 2 * (run' / 2) + 1 = run' by omega]
    rw [PackLiterals_append nbits (pending s / 8) d8 hnb _ _ hwinlen hrestlen]
    · simp [List.append_assoc]
    · intro v hv
      exact hvals v (slice_mem l _ _ v hv)
  · intro r hr
    rcases List.mem_append.mp hr with hr | hr
    · exact hwf r hr
    · rw [List.mem_singleton.mp hr]
      refine ⟨?_, by omega, ?_⟩
      · rw [List.length_append, slice_length l _ _ (by omega), hrestlen]
        omega
      · intro v hv
        rcases List.mem_append.mp hv with hv | hv
        · exact hvals v (slice_mem l _ _ v hv)
        · rcases List.mem_append.mp hv with hv | hv
          · exact hvals v (slice_mem l _ _ v hv)
          · rw [List.eq_of_mem_replicate hv]
            exact Nat.pos_pow_of_pos nbits (by omega)
  · simp only [List.flatMap_append, List.flatMap_cons, List.flatMap_nil, List.append_nil,
      denoteRun, hden]
    have h1 : l.take (s.rle_pos - pending s + pending s) =
        l.take (s.rle_pos - pending s) ++ (l.drop (s.rle_pos - pending s)).take (pending s) :=
      List.take_add l _ _
    have h2 : l.take s.rle_pos ++ (l.drop s.rle_pos).take lit0 = l := by
      rw [← List.take_add, hend, hnum, List.take_length]
    rw [← List.append_assoc, ← List.append_assoc, ← h1,
      show s.rle_pos - pending s + pending s = s.rle_pos by omega, h2]

end Rle

namespace Rle

/-- A chain of adjacent pair equalities yields a constant window and an
in-bounds end position. -/
lemma pairs_window (l : List ℕ) (numvals q c : ℕ)
    (hp : ∀ j < c, q + j + 1 < numvals ∧ l.getD (q + j) 0 = l.getD (q + j + 1) 0) :
    (∀ j < c, l.getD (q + j) 0 = l.getD q 0) ∧ (c ≠ 0 → q + c < numvals) := by
  constructor
  · intro j hj
    exact chain_const (fun i => l.getD i 0) q c (fun j hj => (hp j hj).2) j (le_of_lt hj)
  · intro hc0
    have := (hp (c - 1) (by omega)).1
    omega

/-- Starting a repeat run over a constant window from a closed state
(`startRpt`, page_enc.cu lines 666-672) preserves the encoder invariant;
the `break` arm only fires without flush. -/
lemma startRpt_spec (l : List ℕ) (nbits numvals c v : ℕ) (flush : Bool) (s2 : RleState)
    (hinv : EncInv l nbits s2)
    (hrun0 : s2.rle_run = 0)
    (hc : 1 ≤ c)
    (hcwin : s2.rle_pos + c < numvals)
    (hnum : numvals ≤ l.length)
    (hwin : ∀ j < c, l.getD (s2.rle_pos + j) 0 = v) :
    EncInv l nbits (startRpt v c numvals flush s2).1 ∧
    (startRpt v c numvals flush s2).1.rle_pos = s2.rle_pos + c ∧
    (startRpt v c numvals flush s2).1.rle_run = c * 2 ∧
    ((startRpt v c numvals flush s2).2 = false → flush = false) := by
  obtain ⟨runs, hout, hwf, hpend, hposl, hden, hoddc, hevenc⟩ := hinv
  obtain ⟨hlit2, _⟩ := hevenc (by omega)
  have hp2 : pending s2 = 0 := by rw [pending, if_neg (by omega), hrun0]
  have hE : EncInv l nbits
      { s2 with run_val := v, rle_run := c * 2, rle_pos := s2.rle_pos + c } := by
    refine ⟨runs, hout, hwf, ?_, ?_, ?_, ?_, ?_⟩
    · rw [pending]
      dsimp only
      rw [if_neg (by omega)]
      omega
    · dsimp only
      omega
    · rw [pending]
      dsimp only
      rw [if_neg (by omega), hden, hp2]
      congr 1
      omega
    · intro h
      dsimp only at h
      omega
    · intro _
      refine ⟨hlit2, ?_⟩
      intro i h1 h2
      rw [pending] at h1
      dsimp only at h1 h2
      rw [if_neg (by omega)] at h1
      have := hwin (i - s2.rle_pos) (by omega)
      rwa [show s2.rle_pos + (i - s2.rle_pos) = i by omega] at this
  simp only [startRpt]
  split
  · rename_i hbr
    exact ⟨hE, rfl, rfl, fun _ => by simpa using hbr.2⟩
  · exact ⟨hE, rfl, rfl, fun h => by simp at h⟩

end Rle

namespace Rle

lemma kRleRunNeeded_pos : ∀ i < 16, 1 ≤ kRleRunNeeded.getD i 0 := by decide

/-- What one loop iteration guarantees: either the invariant continues
(with `break` only in the unflushed case), or the flushed end of input has
been reached and closed; a continuing iteration strictly decreases the
loop measure. -/
def LoopPost (l : List ℕ) (nbits numvals : ℕ) (flush : Bool) (s : RleState)
    (r : RleState × Bool) : Prop :=
  ((EncInv l nbits r.1 ∧ r.1.rle_pos ≤ numvals ∧
      (r.1.rle_run % 2 = 1 → r.1.rle_pos < numvals) ∧ (r.2 = false → flush = false)) ∨
   (flush = true ∧ r.2 = true ∧ r.1.rle_run = 0 ∧ r.1.rle_pos = numvals ∧
      FinalOut l nbits r.1)) ∧
  (r.2 = true →
    2 * (numvals - r.1.rle_pos) + (if r.1.rle_run ≠ 0 then 1 else 0) <
      2 * (numvals - s.rle_pos) + (if s.rle_run ≠ 0 then 1 else 0))

end Rle

namespace Rle

/-- The packed state written by the `lit_div8 ≠ 0` arm, in the exact
record shape produced by `packStep`, when every packed position is in
range: invariant for the open state and for its closed form. -/
lemma spRecord_spec (l : List ℕ) (nbits numvals d8 : ℕ) (s : RleState)
    (hnb1 : 1 ≤ nbits) (hvals : ∀ v ∈ l, v < 2 ^ nbits) (hnum : numvals ≤ l.length)
    (hinv : EncInv l nbits s)
    (hrunok : s.rle_run = 0 ∨ s.rle_run % 2 = 1)
    (hd8 : 1 ≤ d8) (hfit : s.rle_pos + d8 * 8 ≤ numvals)
    (hr2ub : (if (s.rle_run + d8 * 2) % 2 = 1 then s.rle_run + d8 * 2
      else s.rle_run + d8 * 2 + 1) ≤ 0x7f) :
    EncInv l nbits
      { s with
        lit := s.lit ++ PackLiterals nbits ((List.range (d8 * 8)).map fun t =>
          if s.rle_pos + t < numvals then l.getD (s.rle_pos + t) 0 else 0)
        rle_run := if (s.rle_run + d8 * 2) % 2 = 1 then s.rle_run + d8 * 2
          else s.rle_run + d8 * 2 + 1
        rle_pos := min (s.rle_pos + d8 * 8) numvals } ∧
    min (s.rle_pos + d8 * 8) numvals = s.rle_pos + d8 * 8 ∧
    (if (s.rle_run + d8 * 2) % 2 = 1 then s.rle_run + d8 * 2
      else s.rle_run + d8 * 2 + 1) % 2 = 1 ∧
    3 ≤ (if (s.rle_run + d8 * 2) % 2 = 1 then s.rle_run + d8 * 2
      else s.rle_run + d8 * 2 + 1) ∧
    EncInv l nbits (closeLit
      { s with
        lit := s.lit ++ PackLiterals nbits ((List.range (d8 * 8)).map fun t =>
          if s.rle_pos + t < numvals then l.getD (s.rle_pos + t) 0 else 0)
        rle_run := if (s.rle_run + d8 * 2) % 2 = 1 then s.rle_run + d8 * 2
          else s.rle_run + d8 * 2 + 1
        rle_pos := min (s.rle_pos + d8 * 8) numvals }) := by
  have hmin : min (s.rle_pos + d8 * 8) numvals = s.rle_pos + d8 * 8 := min_eq_left hfit
  have hodd' : (if (s.rle_run + d8 * 2) % 2 = 1 then s.rle_run + d8 * 2
      else s.rle_run + d8 * 2 + 1) % 2 = 1 := by
    split <;> omega
  have hrun2 : (if (s.rle_run + d8 * 2) % 2 = 1 then s.rle_run + d8 * 2
      else s.rle_run + d8 * 2 + 1) = s.rle_run + d8 * 2 ∨
      (if (s.rle_run + d8 * 2) % 2 = 1 then s.rle_run + d8 * 2
      else s.rle_run + d8 * 2 + 1) = s.rle_run + d8 * 2 + 1 := by
    split
    · exact Or.inl rfl
    · exact Or.inr rfl
  have hlit' : s.lit ++ PackLiterals nbits ((List.range (d8 * 8)).map fun t =>
      if s.rle_pos + t < numvals then l.getD (s.rle_pos + t) 0 else 0) =
      s.lit ++ PackLiterals nbits ((l.drop s.rle_pos).take (d8 * 8)) := by
    rw [payload_eq_slice l numvals s.rle_pos (d8 * 8) hfit hnum]
  have hE : EncInv l nbits
      (⟨min (s.rle_pos + d8 * 8) numvals,
        if (s.rle_run + d8 * 2) % 2 = 1 then s.rle_run + d8 * 2 else s.rle_run + d8 * 2 + 1,
        s.run_val, s.out,
        s.lit ++ PackLiterals nbits ((List.range (d8 * 8)).map fun t =>
          if s.rle_pos + t < numvals then l.getD (s.rle_pos + t) 0 else 0)⟩ : RleState) :=
    packExtend_spec l nbits numvals d8 s _ _ _ hnb1 hvals hnum hinv hrunok hd8 hfit
      hmin hodd' hrun2 hr2ub hlit'
  refine ⟨hE, hmin, hodd', by omega, ?_⟩
  exact (closeLit_spec l nbits _ hvals hE hodd').1

end Rle

namespace Rle

/-- The packed state of the flushed final group (the `+7` rounding arm),
in the exact record shape produced by `packStep`, followed by the forced
close: final-output shape. -/
lemma spFlushClose_spec (l : List ℕ) (nbits numvals lit0 d8 : ℕ) (s : RleState)
    (hnb1 : 1 ≤ nbits) (hvals : ∀ v ∈ l, v < 2 ^ nbits) (hnum : numvals = l.length)
    (hinv : EncInv l nbits s)
    (hrunok : s.rle_run = 0 ∨ s.rle_run % 2 = 1)
    (hlit0 : 1 ≤ lit0) (hend : s.rle_pos + lit0 = numvals)
    (hd8 : d8 = (lit0 + 7) / 8)
    (hr2ub : (if (s.rle_run + d8 * 2) % 2 = 1 then s.rle_run + d8 * 2
      else s.rle_run + d8 * 2 + 1) ≤ 0x7f) :
    FinalOut l nbits (closeLit
      { s with
        lit := s.lit ++ PackLiterals nbits ((List.range (d8 * 8)).map fun t =>
          if s.rle_pos + t < numvals then l.getD (s.rle_pos + t) 0 else 0)
        rle_run := if (s.rle_run + d8 * 2) % 2 = 1 then s.rle_run + d8 * 2
          else s.rle_run + d8 * 2 + 1
        rle_pos := min (s.rle_pos + d8 * 8) numvals }) ∧
    (closeLit
      { s with
        lit := s.lit ++ PackLiterals nbits ((List.range (d8 * 8)).map fun t =>
          if s.rle_pos + t < numvals then l.getD (s.rle_pos + t) 0 else 0)
        rle_run := if (s.rle_run + d8 * 2) % 2 = 1 then s.rle_run + d8 * 2
          else s.rle_run + d8 * 2 + 1
        rle_pos := min (s.rle_pos + d8 * 8) numvals }).rle_run = 0 ∧
    (closeLit
      { s with
        lit := s.lit ++ PackLiterals nbits ((List.range (d8 * 8)).map fun t =>
          if s.rle_pos + t < numvals then l.getD (s.rle_pos + t) 0 else 0)
        rle_run := if (s.rle_run + d8 * 2) % 2 = 1 then s.rle_run + d8 * 2
          else s.rle_run + d8 * 2 + 1
        rle_pos := min (s.rle_pos + d8 * 8) numvals }).rle_pos = numvals ∧
    min (s.rle_pos + d8 * 8) numvals = numvals := by
  have hminr : min (s.rle_pos + d8 * 8) numvals = numvals := min_eq_right (by omega)
  have hodd' : (if (s.rle_run + d8 * 2) % 2 = 1 then s.rle_run + d8 * 2
      else s.rle_run + d8 * 2 + 1) % 2 = 1 := by
    split <;> omega
  have hrun2 : (if (s.rle_run + d8 * 2) % 2 = 1 then s.rle_run + d8 * 2
      else s.rle_run + d8 * 2 + 1) = s.rle_run + d8 * 2 ∨
      (if (s.rle_run + d8 * 2) % 2 = 1 then s.rle_run + d8 * 2
      else s.rle_run + d8 * 2 + 1) = s.rle_run + d8 * 2 + 1 := by
    split
    · exact Or.inl rfl
    · exact Or.inr rfl
  have h := flushClose_spec l nbits numvals lit0 d8 s
    (min (s.rle_pos + d8 * 8) numvals)
    (if (s.rle_run + d8 * 2) % 2 = 1 then s.rle_run + d8 * 2 else s.rle_run + d8 * 2 + 1)
    (s.lit ++ PackLiterals nbits ((List.range (d8 * 8)).map fun t =>
      if s.rle_pos + t < numvals then l.getD (s.rle_pos + t) 0 else 0))
    hnb1 hvals hnum hinv hrunok hlit0 hend hd8 hminr hodd' hrun2 hr2ub rfl
  exact ⟨h.1, h.2.1, h.2.2.1, hminr⟩

end Rle

namespace Rle

lemma closeLit_pos (x : RleState) : (closeLit x).rle_pos = x.rle_pos := rfl

lemma closeLit_run (x : RleState) : (closeLit x).rle_run = 0 := rfl

/-- `litRunScan` over the stream read off `l`, as `scanPair`. -/
lemma litRunScan_eq' (l : List ℕ) (numvals nbits : ℕ) (s : RleState) :
    litRunScan (fun i => l.getD i 0) numvals nbits s =
      scanPair (fun t => decide (s.rle_pos + t + 1 < numvals) &&
          decide (l.getD (s.rle_pos + t) 0 = l.getD (s.rle_pos + t + 1) 0))
        (min (numvals - s.rle_pos) 128) (kRleRunNeeded.getD (nbits - 1) 0) := rfl

end Rle

namespace Rle

set_option maxHeartbeats 3200000 in
lemma literalModeStep_spec (l : List ℕ) (nbits numvals : ℕ) (flush : Bool) (s : RleState)
    (hnb1 : 1 ≤ nbits) (hnb16 : nbits ≤ 16)
    (hvals : ∀ v ∈ l, v < 2 ^ nbits) (hnum : numvals ≤ l.length)
    (hfl : flush = true → numvals = l.length)
    (hinv : EncInv l nbits s) (hpos : s.rle_pos ≤ numvals)
    (hoddlt : s.rle_run % 2 = 1 → s.rle_pos < numvals)
    (hrunok : s.rle_run = 0 ∨ s.rle_run % 2 = 1)
    (hcond : s.rle_pos < numvals ∨ (flush = true ∧ s.rle_run ≠ 0)) :
    LoopPost l nbits numvals flush s
      (literalModeStep (fun i => l.getD i 0) numvals nbits flush s) := by
  have hneed : 0 < kRleRunNeeded.getD (nbits - 1) 0 :=
    kRleRunNeeded_pos (nbits - 1) (by omega)
  have hinv' := hinv
  obtain ⟨runsE, _, _, hpendE, _, _, hoddcE, hevencE⟩ := hinv'
  have hrun37 : s.rle_run % 2 = 1 → 3 ≤ s.rle_run ∧ s.rle_run ≤ 0x7f :=
    fun h => ⟨(hoddcE h).1, (hoddcE h).2.1⟩
  have hrun7f : s.rle_run ≤ 0x7f := by
    rcases hrunok with h | h
    · omega
    · exact (hrun37 h).2
  simp only [LoopPost, literalModeStep, litRunScan_eq']
  set P : ℕ → Bool := fun t =>
    decide (s.rle_pos + t + 1 < numvals) &&
      decide (l.getD (s.rle_pos + t) 0 = l.getD (s.rle_pos + t + 1) 0) with hP
  set sc : ℕ × ℕ :=
    scanPair P (min (numvals - s.rle_pos) 128) (kRleRunNeeded.getD (nbits - 1) 0) with hsc
  obtain ⟨hL1, hLR, hRne, hR0⟩ :=
    scanPair_spec P (min (numvals - s.rle_pos) 128) (kRleRunNeeded.getD (nbits - 1) 0)
      hneed (by omega)
  rw [← hsc] at hL1 hLR hRne hR0
  have hpairs : ∀ j < sc.2, s.rle_pos + sc.1 + j + 1 < numvals ∧
      l.getD (s.rle_pos + sc.1 + j) 0 = l.getD (s.rle_pos + sc.1 + j + 1) 0 := by
    intro j hj
    have h := (hRne (by omega)).2 j hj
    rw [hP] at h
    simp only [Bool.and_eq_true, decide_eq_true_eq] at h
    refine ⟨by omega, ?_⟩
    rw [show s.rle_pos + sc.1 + j = s.rle_pos + (sc.1 + j) by omega]
    exact h.2
  obtain ⟨hwconst, hwend⟩ := pairs_window l numvals (s.rle_pos + sc.1) sc.2 hpairs
  have hL8 : sc.2 ≠ 0 → sc.1 % 8 = 0 := fun h => (hRne h).1
  by_cases hG : sc.1 ≠ 0 ∨ (s.rle_run ≠ 0 ∧ sc.2 ≠ 0)
  · rw [if_pos hG]
    by_cases hnm : ¬flush = true ∧ s.rle_pos + sc.1 = numvals
    · -- need_more: every arm returns (s2, false)
      have hflf : flush = false := by
        cases flush
        · rfl
        · exact absurd rfl hnm.1
      have hsc2 : sc.2 = 0 := by
        by_contra h
        have := (hpairs 0 (by omega)).1
        omega
      simp only [if_pos hnm, packStep]
      rw [hsc2]
      simp only [ite_self]
      have hthrX : ∀ q : Prop, ¬((0 : ℕ) ≠ 0 ∨ (flush = true ∧ q)) := by
        rintro q (h | ⟨hf, _⟩)
        · exact h rfl
        · rw [hflf] at hf
          exact Bool.noConfusion hf
      by_cases hLCz : sc.1 - min sc.1 24 ≠ 0
      · rw [if_pos hLCz]
        have hc7 : ¬(flush = true ∧ s.rle_pos + (sc.1 - min sc.1 24) = numvals) := by
          rintro ⟨hf, _⟩
          rw [hflf] at hf
          exact Bool.noConfusion hf
        rw [if_neg hc7, Nat.add_zero]
        by_cases htr : 0x7f < s.rle_run + (sc.1 - min sc.1 24) / 8 * 2
        · -- truncation: the run is odd and large
          have hodd1 : s.rle_run % 2 = 1 := by
            rcases hrunok with h0 | h1
            · exfalso
              omega
            · exact h1
          obtain ⟨hrun3, _⟩ := hrun37 hodd1
          simp only [if_pos htr]
          by_cases hd8z : (0x3f : ℕ) - s.rle_run / 2 ≠ 0
          · rw [if_pos hd8z]
            have hd8a : s.rle_pos + sc.1 - 24 ≤ numvals ∧ sc.1 ≤ 128 := by omega
            obtain ⟨hEsp, hminsp, hoddsp, h3sp, hEcl⟩ :=
              spRecord_spec l nbits numvals (0x3f - s.rle_run / 2) s hnb1 hvals hnum hinv
                hrunok (by omega) (by omega) (by split <;> omega)
            have hspr : (if (s.rle_run + (0x3f - s.rle_run / 2) * 2) % 2 = 1 then
                s.rle_run + (0x3f - s.rle_run / 2) * 2
                else s.rle_run + (0x3f - s.rle_run / 2) * 2 + 1) = 0x7f := by
              rw [if_pos (by omega)]
              omega
            rw [if_neg (hthrX _)]
            dsimp only
            rw [hspr, if_pos (by omega : (0x7f : ℕ) ≥ 0x7f)]
            refine ⟨Or.inl ⟨?_, ?_, ?_, fun _ => hflf⟩, ?_⟩
            · rw [← hspr]
              exact hEcl
            · rw [closeLit_pos]
              dsimp only
              omega
            · rw [closeLit_run]
              intro h
              omega
            · intro h
              simp at h
          · rw [if_neg hd8z]
            have hrun127 : s.rle_run = 0x7f := by omega
            rw [if_neg (hthrX _)]
            dsimp only
            rw [if_pos (by omega : s.rle_run ≥ 0x7f)]
            obtain ⟨hE2, hp2, hr2', hlit2⟩ := closeLit_spec l nbits s hvals hinv hodd1
            refine ⟨Or.inl ⟨hE2, ?_, ?_, fun _ => hflf⟩, ?_⟩
            · rw [hp2]
              exact hpos
            · rw [hr2']
              intro h
              omega
            · intro h
              simp at h
        · -- no truncation
          simp only [if_neg htr]
          by_cases hd8z : (sc.1 - min sc.1 24) / 8 ≠ 0
          · rw [if_pos hd8z]
            have hr2ub : (if (s.rle_run + (sc.1 - min sc.1 24) / 8 * 2) % 2 = 1 then
                s.rle_run + (sc.1 - min sc.1 24) / 8 * 2
                else s.rle_run + (sc.1 - min sc.1 24) / 8 * 2 + 1) ≤ 0x7f := by
              split
              · omega
              · rcases hrunok with h | h
                · omega
                · omega
            obtain ⟨hEsp, hminsp, hoddsp, h3sp, hEcl⟩ :=
              spRecord_spec l nbits numvals ((sc.1 - min sc.1 24) / 8) s hnb1 hvals hnum hinv
                hrunok (by omega) (by omega) hr2ub
            rw [if_neg (hthrX _)]
            dsimp only
            by_cases hcl : (if (s.rle_run + (sc.1 - min sc.1 24) / 8 * 2) % 2 = 1 then
                s.rle_run + (sc.1 - min sc.1 24) / 8 * 2
                else s.rle_run + (sc.1 - min sc.1 24) / 8 * 2 + 1) ≥ 0x7f
            · rw [if_pos hcl]
              refine ⟨Or.inl ⟨hEcl, ?_, ?_, fun _ => hflf⟩, ?_⟩
              · rw [closeLit_pos]
                dsimp only
                omega
              · rw [closeLit_run]
                intro h
                omega
              · intro h
                simp at h
            · rw [if_neg hcl]
              refine ⟨Or.inl ⟨hEsp, ?_, ?_, fun _ => hflf⟩, ?_⟩
              · dsimp only
                omega
              · dsimp only
                intro _
                omega
              · intro h
                simp at h
          · rw [if_neg hd8z]
            rw [if_neg (hthrX _)]
            dsimp only
            by_cases hcl : s.rle_run ≥ 0x7f
            · rw [if_pos hcl]
              have hodd1 : s.rle_run % 2 = 1 := by
                rcases hrunok with h0 | h1
                · omega
                · exact h1
              obtain ⟨hE2, hp2, hr2', hlit2⟩ := closeLit_spec l nbits s hvals hinv hodd1
              refine ⟨Or.inl ⟨hE2, ?_, ?_, fun _ => hflf⟩, ?_⟩
              · rw [hp2]
                exact hpos
              · rw [hr2']
                intro h
                omega
              · intro h
                simp at h
            · rw [if_neg hcl]
              refine ⟨Or.inl ⟨hinv, hpos, hoddlt, fun _ => hflf⟩, ?_⟩
              intro h
              simp at h
      · rw [if_neg hLCz]
        rw [if_neg (hthrX _)]
        dsimp only
        by_cases hcl : s.rle_run ≥ 0x7f
        · rw [if_pos hcl]
          have hodd1 : s.rle_run % 2 = 1 := by
            rcases hrunok with h0 | h1
            · omega
            · exact h1
          obtain ⟨hE2, hp2, hr2', hlit2⟩ := closeLit_spec l nbits s hvals hinv hodd1
          refine ⟨Or.inl ⟨hE2, ?_, ?_, fun _ => hflf⟩, ?_⟩
          · rw [hp2]
            exact hpos
          · rw [hr2']
            intro h
            omega
          · intro h
            simp at h
        · rw [if_neg hcl]
          refine ⟨Or.inl ⟨hinv, hpos, hoddlt, fun _ => hflf⟩, ?_⟩
          intro h
          simp at h
    · -- no need_more
      simp only [if_neg hnm, packStep]
      by_cases hL0 : sc.1 ≠ 0
      · rw [if_pos hL0]
        by_cases hfe : flush = true ∧ s.rle_pos + sc.1 = numvals
        · -- flushed end of input: pack the padded final group and close
          rw [if_pos hfe]
          have hsc2 : sc.2 = 0 := by
            by_contra h
            have := (hpairs 0 (by omega)).1
            omega
          rw [hsc2]
          simp only [ite_self]
          have hposlt : s.rle_pos < numvals := by omega
          by_cases htr : 0x7f < s.rle_run + (sc.1 + 7) / 8 * 2
          · have hodd1 : s.rle_run % 2 = 1 := by
              rcases hrunok with h0 | h1
              · exfalso
                omega
              · exact h1
            obtain ⟨hrun3, _⟩ := hrun37 hodd1
            rw [if_pos htr]
            by_cases hd8z : (0x3f : ℕ) - s.rle_run / 2 ≠ 0
            · rw [if_pos hd8z]
              obtain ⟨hEsp, hminsp, hoddsp, h3sp, hEcl⟩ :=
                spRecord_spec l nbits numvals (0x3f - s.rle_run / 2) s hnb1 hvals hnum hinv
                  hrunok (by omega) (by omega) (by split <;> omega)
              have hspr : (if (s.rle_run + (0x3f - s.rle_run / 2) * 2) % 2 = 1 then
                  s.rle_run + (0x3f - s.rle_run / 2) * 2
                  else s.rle_run + (0x3f - s.rle_run / 2) * 2 + 1) = 0x7f := by
                rw [if_pos (by omega)]
                omega
              dsimp only
              rw [if_neg (show ¬((0 : ℕ) ≠ 0 ∨ (flush = true ∧
                  min (s.rle_pos + (0x3f - s.rle_run / 2) * 8) numvals = numvals)) by
                rintro (h | ⟨_, hm⟩)
                · exact h rfl
                · rw [hminsp] at hm
                  omega)]
              rw [hspr, if_pos (by omega : (0x7f : ℕ) ≥ 0x7f)]
              rw [if_neg (show ¬(0 : ℕ) ≠ 0 from fun h => h rfl)]
              refine ⟨Or.inl ⟨?_, ?_, ?_, ?_⟩, ?_⟩
              · rw [← hspr]
                exact hEcl
              · rw [closeLit_pos]
                dsimp only
                omega
              · rw [closeLit_run]
                intro h
                omega
              · intro h
                simp at h
              · intro _
                rw [closeLit_pos, closeLit_run]
                dsimp only
                rw [if_neg (by omega : ¬(0 : ℕ) ≠ 0), if_pos (by omega : s.rle_run ≠ 0)]
                omega
            · rw [if_neg hd8z]
              have hrun127 : s.rle_run = 0x7f := by omega
              dsimp only
              rw [if_neg (show ¬((0 : ℕ) ≠ 0 ∨ (flush = true ∧ s.rle_pos = numvals)) by
                rintro (h | ⟨_, hm⟩)
                · exact h rfl
                · omega)]
              rw [if_pos (by omega : s.rle_run ≥ 0x7f)]
              rw [if_neg (show ¬(0 : ℕ) ≠ 0 from fun h => h rfl)]
              obtain ⟨hE2, hp2, hr2', hlit2⟩ := closeLit_spec l nbits s hvals hinv hodd1
              refine ⟨Or.inl ⟨hE2, ?_, ?_, ?_⟩, ?_⟩
              · rw [hp2]
                exact hpos
              · rw [hr2']
                intro h
                omega
              · intro h
                simp at h
              · intro _
                rw [hp2, hr2']
                rw [if_neg (by omega : ¬(0 : ℕ) ≠ 0), if_pos (by omega : s.rle_run ≠ 0)]
                omega
          · -- no truncation: the padded close reaches the end
            rw [if_neg htr]
            rw [if_pos (show (sc.1 + 7) / 8 ≠ 0 by omega)]
            have hr2ub : (if (s.rle_run + (sc.1 + 7) / 8 * 2) % 2 = 1 then
                s.rle_run + (sc.1 + 7) / 8 * 2
                else s.rle_run + (sc.1 + 7) / 8 * 2 + 1) ≤ 0x7f := by
              split
              · omega
              · rcases hrunok with h | h
                · omega
                · omega
            obtain ⟨hFO, hr0, hpn, hminr⟩ :=
              spFlushClose_spec l nbits numvals sc.1 ((sc.1 + 7) / 8) s hnb1 hvals
                (hfl hfe.1) hinv hrunok (by omega) hfe.2 rfl hr2ub
            dsimp only
            rw [if_pos (Or.inr ⟨hfe.1, hminr⟩)]
            rw [if_pos (show (if (s.rle_run + (sc.1 + 7) / 8 * 2) % 2 = 1 then
                s.rle_run + (sc.1 + 7) / 8 * 2
                else s.rle_run + (sc.1 + 7) / 8 * 2 + 1) ≥ 3 by split <;> omega)]
            rw [if_neg (show ¬(0 : ℕ) ≠ 0 from fun h => h rfl)]
            refine ⟨Or.inr ⟨hfe.1, rfl, hr0, hpn, hFO⟩, ?_⟩
            intro _
            rw [hpn, hr0]
            rw [if_neg (by omega : ¬(0 : ℕ) ≠ 0)]
            omega
        · -- not the flushed end
          rw [if_neg hfe]
          rw [Nat.add_zero]
          have hposend : s.rle_pos + sc.1 ≤ numvals := by omega
          by_cases hR : sc.2 ≠ 0
          · -- a repeat run follows the literal prefix
            have hL8' : sc.1 % 8 = 0 := hL8 hR
            have hend' : s.rle_pos + sc.1 + sc.2 < numvals := hwend hR
            by_cases htr : 0x7f < s.rle_run + sc.1 / 8 * 2
            · have hodd1 : s.rle_run % 2 = 1 := by
                rcases hrunok with h0 | h1
                · exfalso
                  omega
                · exact h1
              obtain ⟨hrun3, _⟩ := hrun37 hodd1
              simp only [if_pos htr]
              by_cases hd8z : (0x3f : ℕ) - s.rle_run / 2 ≠ 0
              · rw [if_pos hd8z]
                obtain ⟨hEsp, hminsp, hoddsp, h3sp, hEcl⟩ :=
                  spRecord_spec l nbits numvals (0x3f - s.rle_run / 2) s hnb1 hvals hnum hinv
                    hrunok (by omega) (by omega) (by split <;> omega)
                have hspr : (if (s.rle_run + (0x3f - s.rle_run / 2) * 2) % 2 = 1 then
                    s.rle_run + (0x3f - s.rle_run / 2) * 2
                    else s.rle_run + (0x3f - s.rle_run / 2) * 2 + 1) = 0x7f := by
                  rw [if_pos (by omega)]
                  omega
                dsimp only
                rw [if_neg (show ¬((0 : ℕ) ≠ 0 ∨ (flush = true ∧
                    min (s.rle_pos + (0x3f - s.rle_run / 2) * 8) numvals = numvals)) by
                  rintro (h | ⟨_, hm⟩)
                  · exact h rfl
                  · rw [hminsp] at hm
                    omega)]
                rw [hspr, if_pos (by omega : (0x7f : ℕ) ≥ 0x7f)]
                rw [if_neg (show ¬(0 : ℕ) ≠ 0 from fun h => h rfl)]
                refine ⟨Or.inl ⟨?_, ?_, ?_, ?_⟩, ?_⟩
                · rw [← hspr]
                  exact hEcl
                · rw [closeLit_pos]
                  dsimp only
                  omega
                · rw [closeLit_run]
                  intro h
                  omega
                · intro h
                  simp at h
                · intro _
                  rw [closeLit_pos, closeLit_run]
                  dsimp only
                  rw [if_neg (by omega : ¬(0 : ℕ) ≠ 0), if_pos (by omega : s.rle_run ≠ 0)]
                  omega
              · rw [if_neg hd8z]
                have hrun127 : s.rle_run = 0x7f := by omega
                dsimp only
                rw [if_neg (show ¬((0 : ℕ) ≠ 0 ∨ (flush = true ∧ s.rle_pos = numvals)) by
                  rintro (h | ⟨_, hm⟩)
                  · exact h rfl
                  · have := hoddlt hodd1
                    omega)]
                rw [if_pos (by omega : s.rle_run ≥ 0x7f)]
                rw [if_neg (show ¬(0 : ℕ) ≠ 0 from fun h => h rfl)]
                obtain ⟨hE2, hp2, hr2', hlit2⟩ := closeLit_spec l nbits s hvals hinv hodd1
                refine ⟨Or.inl ⟨hE2, ?_, ?_, ?_⟩, ?_⟩
                · rw [hp2]
                  exact hpos
                · rw [hr2']
                  intro h
                  omega
                · intro h
                  simp at h
                · intro _
                  rw [hp2, hr2']
                  rw [if_neg (by omega : ¬(0 : ℕ) ≠ 0), if_pos (by omega : s.rle_run ≠ 0)]
                  omega
            · -- exact literal prefix, then hand off to the repeat run
              simp only [if_neg htr]
              rw [if_pos (show sc.1 / 8 ≠ 0 by omega)]
              have hr2ub : (if (s.rle_run + sc.1 / 8 * 2) % 2 = 1 then
                  s.rle_run + sc.1 / 8 * 2
                  else s.rle_run + sc.1 / 8 * 2 + 1) ≤ 0x7f := by
                split
                · omega
                · rcases hrunok with h | h
                  · omega
                  · omega
              obtain ⟨hEsp, hminsp, hoddsp, h3sp, hEcl⟩ :=
                spRecord_spec l nbits numvals (sc.1 / 8) s hnb1 hvals hnum hinv
                  hrunok (by omega) (by omega) hr2ub
              dsimp only
              rw [if_pos (Or.inl hR)]
              rw [if_pos (show (if (s.rle_run + sc.1 / 8 * 2) % 2 = 1 then
                  s.rle_run + sc.1 / 8 * 2
                  else s.rle_run + sc.1 / 8 * 2 + 1) ≥ 3 by split <;> omega)]
              rw [if_pos hR]
              have hwin1 : ∀ j < sc.2,
                  l.getD ((closeLit
                    { s with
                      lit := s.lit ++ PackLiterals nbits ((List.range (sc.1 / 8 * 8)).map fun t =>
                        if s.rle_pos + t < numvals then l.getD (s.rle_pos + t) 0 else 0)
                      rle_run := if (s.rle_run + sc.1 / 8 * 2) % 2 = 1 then
                        s.rle_run + sc.1 / 8 * 2 else s.rle_run + sc.1 / 8 * 2 + 1
                      rle_pos := min (s.rle_pos + sc.1 / 8 * 8) numvals }).rle_pos + j) 0 =
                    l.getD (s.rle_pos + sc.1) 0 := by
                intro j hj
                rw [closeLit_pos]
                dsimp only
                rw [hminsp, show s.rle_pos + sc.1 / 8 * 8 = s.rle_pos + sc.1 by omega]
                exact hwconst j hj
              obtain ⟨hE3, hp3, hr3, hb3⟩ :=
                startRpt_spec l nbits numvals sc.2 (l.getD (s.rle_pos + sc.1) 0) flush _
                  hEcl (closeLit_run _) (by omega)
                  (by rw [closeLit_pos]; dsimp only; omega) hnum hwin1
              refine ⟨Or.inl ⟨hE3, ?_, ?_, hb3⟩, ?_⟩
              · rw [hp3, closeLit_pos]
                dsimp only
                omega
              · rw [hr3]
                intro h
                omega
              · intro _
                rw [hp3, hr3, closeLit_pos]
                dsimp only
                rw [if_pos (by omega : sc.2 * 2 ≠ 0)]
                omega
          · -- the whole window is one literal prefix
            have hR' : sc.2 = 0 := by omega
            have hmveq := hR0 hR'
            have hlt : s.rle_pos + sc.1 < numvals := by
              rcases Nat.lt_or_ge (s.rle_pos + sc.1) numvals with h | h
              · exact h
              · exfalso
                have heq : s.rle_pos + sc.1 = numvals := by omega
                cases hfv : flush
                · exact hnm ⟨by rw [hfv]; simp, heq⟩
                · exact hfe ⟨hfv, heq⟩
            have hsc18 : 8 ≤ sc.1 := by omega
            rw [hR']
            simp only [ite_self]
            by_cases htr : 0x7f < s.rle_run + sc.1 / 8 * 2
            · have hodd1 : s.rle_run % 2 = 1 := by
                rcases hrunok with h0 | h1
                · exfalso
                  omega
                · exact h1
              obtain ⟨hrun3, _⟩ := hrun37 hodd1
              rw [if_pos htr]
              by_cases hd8z : (0x3f : ℕ) - s.rle_run / 2 ≠ 0
              · rw [if_pos hd8z]
                obtain ⟨hEsp, hminsp, hoddsp, h3sp, hEcl⟩ :=
                  spRecord_spec l nbits numvals (0x3f - s.rle_run / 2) s hnb1 hvals hnum hinv
                    hrunok (by omega) (by omega) (by split <;> omega)
                have hspr : (if (s.rle_run + (0x3f - s.rle_run / 2) * 2) % 2 = 1 then
                    s.rle_run + (0x3f - s.rle_run / 2) * 2
                    else s.rle_run + (0x3f - s.rle_run / 2) * 2 + 1) = 0x7f := by
                  rw [if_pos (by omega)]
                  omega
                dsimp only
                rw [if_neg (show ¬((0 : ℕ) ≠ 0 ∨ (flush = true ∧
                    min (s.rle_pos + (0x3f - s.rle_run / 2) * 8) numvals = numvals)) by
                  rintro (h | ⟨_, hm⟩)
                  · exact h rfl
                  · rw [hminsp] at hm
                    omega)]
                rw [hspr, if_pos (by omega : (0x7f : ℕ) ≥ 0x7f)]
                rw [if_neg (show ¬(0 : ℕ) ≠ 0 from fun h => h rfl)]
                refine ⟨Or.inl ⟨?_, ?_, ?_, ?_⟩, ?_⟩
                · rw [← hspr]
                  exact hEcl
                · rw [closeLit_pos]
                  dsimp only
                  omega
                · rw [closeLit_run]
                  intro h
                  omega
                · intro h
                  simp at h
                · intro _
                  rw [closeLit_pos, closeLit_run]
                  dsimp only
                  rw [if_neg (by omega : ¬(0 : ℕ) ≠ 0), if_pos (by omega : s.rle_run ≠ 0)]
                  omega
              · rw [if_neg hd8z]
                have hrun127 : s.rle_run = 0x7f := by omega
                dsimp only
                rw [if_neg (show ¬((0 : ℕ) ≠ 0 ∨ (flush = true ∧ s.rle_pos = numvals)) by
                  rintro (h | ⟨_, hm⟩)
                  · exact h rfl
                  · have := hoddlt hodd1
                    omega)]
                rw [if_pos (by omega : s.rle_run ≥ 0x7f)]
                rw [if_neg (show ¬(0 : ℕ) ≠ 0 from fun h => h rfl)]
                obtain ⟨hE2, hp2, hr2', hlit2⟩ := closeLit_spec l nbits s hvals hinv hodd1
                refine ⟨Or.inl ⟨hE2, ?_, ?_, ?_⟩, ?_⟩
                · rw [hp2]
                  exact hpos
                · rw [hr2']
                  intro h
                  omega
                · intro h
                  simp at h
                · intro _
                  rw [hp2, hr2']
                  rw [if_neg (by omega : ¬(0 : ℕ) ≠ 0), if_pos (by omega : s.rle_run ≠ 0)]
                  omega
            · rw [if_neg htr]
              rw [if_pos (show sc.1 / 8 ≠ 0 by omega)]
              have hr2ub : (if (s.rle_run + sc.1 / 8 * 2) % 2 = 1 then
                  s.rle_run + sc.1 / 8 * 2
                  else s.rle_run + sc.1 / 8 * 2 + 1) ≤ 0x7f := by
                split
                · omega
                · rcases hrunok with h | h
                  · omega
                  · omega
              obtain ⟨hEsp, hminsp, hoddsp, h3sp, hEcl⟩ :=
                spRecord_spec l nbits numvals (sc.1 / 8) s hnb1 hvals hnum hinv
                  hrunok (by omega) (by omega) hr2ub
              dsimp only
              rw [if_neg (show ¬((0 : ℕ) ≠ 0 ∨ (flush = true ∧
                  min (s.rle_pos + sc.1 / 8 * 8) numvals = numvals)) by
                rintro (h | ⟨_, hm⟩)
                · exact h rfl
                · rw [hminsp] at hm
                  omega)]
              by_cases hcl : (if (s.rle_run + sc.1 / 8 * 2) % 2 = 1 then
                  s.rle_run + sc.1 / 8 * 2
                  else s.rle_run + sc.1 / 8 * 2 + 1) ≥ 0x7f
              · rw [if_pos hcl]
                rw [if_neg (show ¬(0 : ℕ) ≠ 0 from fun h => h rfl)]
                refine ⟨Or.inl ⟨hEcl, ?_, ?_, ?_⟩, ?_⟩
                · rw [closeLit_pos]
                  dsimp only
                  omega
                · rw [closeLit_run]
                  intro h
                  omega
                · intro h
                  simp at h
                · intro _
                  rw [closeLit_pos, closeLit_run]
                  dsimp only
                  rw [if_neg (by omega : ¬(0 : ℕ) ≠ 0)]
                  omega
              · rw [if_neg hcl]
                rw [if_neg (show ¬(0 : ℕ) ≠ 0 from fun h => h rfl)]
                refine ⟨Or.inl ⟨hEsp, ?_, ?_, ?_⟩, ?_⟩
                · dsimp only
                  omega
                · dsimp only
                  intro _
                  omega
                · intro h
                  simp at h
                · intro _
                  dsimp only
                  rw [if_pos (by omega : (if (s.rle_run + sc.1 / 8 * 2) % 2 = 1 then
                    s.rle_run + sc.1 / 8 * 2 else s.rle_run + sc.1 / 8 * 2 + 1) ≠ 0)]
                  omega
      · -- empty literal prefix: close the open run and hand off directly
        rw [if_neg hL0]
        have hrn : s.rle_run ≠ 0 ∧ sc.2 ≠ 0 := by
          rcases hG with h | h
          · exact absurd h hL0
          · exact h
        have hodd1 : s.rle_run % 2 = 1 := by
          rcases hrunok with h0 | h1
          · exact absurd h0 hrn.1
          · exact h1
        obtain ⟨hrun3, _⟩ := hrun37 hodd1
        dsimp only
        rw [if_pos (Or.inl hrn.2), if_pos (by omega : s.rle_run ≥ 3), if_pos hrn.2]
        obtain ⟨hE2, hp2, hr2', hlit2⟩ := closeLit_spec l nbits s hvals hinv hodd1
        have hwin1 : ∀ j < sc.2, l.getD ((closeLit s).rle_pos + j) 0 =
            l.getD (s.rle_pos + sc.1) 0 := by
          intro j hj
          rw [closeLit_pos]
          have h := hwconst j hj
          rw [show s.rle_pos + sc.1 + j = s.rle_pos + j by omega] at h
          exact h
        obtain ⟨hE3, hp3, hr3, hb3⟩ :=
          startRpt_spec l nbits numvals sc.2 (l.getD (s.rle_pos + sc.1) 0) flush _
            hE2 hr2' (by omega) (by rw [closeLit_pos]; omega) hnum hwin1
        refine ⟨Or.inl ⟨hE3, ?_, ?_, hb3⟩, ?_⟩
        · rw [hp3, closeLit_pos]
          omega
        · rw [hr3]
          intro h
          omega
        · intro _
          rw [hp3, hr3, closeLit_pos]
          rw [if_pos (by omega : sc.2 * 2 ≠ 0), if_pos (by omega : s.rle_run ≠ 0)]
          omega
  · rw [if_neg hG]
    push_neg at hG
    obtain ⟨hL0, hG2⟩ := hG
    by_cases hR : sc.2 ≠ 0
    · rw [if_pos hR]
      have hrun0 : s.rle_run = 0 := by
        by_contra h
        exact hR (hG2 h)
      have hwin0 : ∀ j < sc.2, l.getD (s.rle_pos + j) 0 = l.getD (s.rle_pos + sc.1) 0 := by
        intro j hj
        have h := hwconst j hj
        rw [hL0] at h ⊢
        simpa using h
      obtain ⟨hE3, hp3, hr3, hb3⟩ :=
        startRpt_spec l nbits numvals sc.2 (l.getD (s.rle_pos + sc.1) 0) flush s
          hinv hrun0 (by omega) (by have := hwend hR; omega) hnum hwin0
      refine ⟨Or.inl ⟨hE3, by omega, by omega, hb3⟩, ?_⟩
      intro _
      rw [hp3, hr3, if_pos (by omega : sc.2 * 2 ≠ 0), if_neg (by omega : ¬s.rle_run ≠ 0)]
      have := hwend hR
      omega
    · rw [if_neg hR]
      exfalso
      have hR' : sc.2 = 0 := by omega
      have hmveq := hR0 hR'
      have h1 : numvals ≤ s.rle_pos := by omega
      rcases hcond with h | ⟨hf, hrn⟩
      · omega
      · rcases hrunok with h0 | hodd1
        · exact hrn h0
        · have := hoddlt hodd1
          omega

end Rle

namespace Rle

/-- Dispatch of one `RleEncode` loop iteration. -/
lemma rleStep_spec (l : List ℕ) (nbits numvals : ℕ) (flush : Bool) (s : RleState)
    (hnb1 : 1 ≤ nbits) (hnb16 : nbits ≤ 16)
    (hvals : ∀ v ∈ l, v < 2 ^ nbits) (hnum : numvals ≤ l.length)
    (hfl : flush = true → numvals = l.length)
    (hinv : EncInv l nbits s) (hpos : s.rle_pos ≤ numvals)
    (hoddlt : s.rle_run % 2 = 1 → s.rle_pos < numvals)
    (hcond : s.rle_pos < numvals ∨ (flush = true ∧ s.rle_run ≠ 0)) :
    LoopPost l nbits numvals flush s (rleStep (fun i => l.getD i 0) numvals nbits flush s) := by
  rw [rleStep]
  by_cases hrm : 0 < s.rle_run ∧ s.rle_run % 2 = 0
  · rw [if_pos hrm]
    obtain ⟨hE, hple, holt, htr, hms⟩ :=
      repeatModeStep_spec l nbits numvals flush s hvals hnum hinv hpos hrm hcond
    simp only [LoopPost]
    exact ⟨Or.inl ⟨hE, hple, holt, fun h => by rw [htr] at h; exact absurd h (by simp)⟩,
      fun _ => hms⟩
  · rw [if_neg hrm]
    have hrunok : s.rle_run = 0 ∨ s.rle_run % 2 = 1 := by
      rcases Nat.eq_zero_or_pos s.rle_run with h | h
      · exact Or.inl h
      · right
        by_contra hne
        exact hrm ⟨h, by omega⟩
    exact literalModeStep_spec l nbits numvals flush s hnb1 hnb16 hvals hnum hfl hinv hpos
      hoddlt hrunok hcond

/-- An exactly-finished flushed state is final output with no padding. -/
lemma EncInv_final (l : List ℕ) (nbits : ℕ) (s : RleState)
    (hinv : EncInv l nbits s) (hr : s.rle_run = 0) (hp : s.rle_pos = l.length) :
    FinalOut l nbits s := by
  obtain ⟨runs, hout, hwf, hpend, hposl, hden, _, _⟩ := hinv
  refine ⟨runs, 0, hout, hwf, ?_, by omega⟩
  rw [hden, pending, if_neg (by omega), hr]
  simp [hp]

/-- The fuel-driven `RleEncode` loop: invariants in, invariants (or, when
flushed, the final-output shape) out. -/
lemma rleLoop_spec (l : List ℕ) (nbits numvals : ℕ) (flush : Bool)
    (hnb1 : 1 ≤ nbits) (hnb16 : nbits ≤ 16)
    (hvals : ∀ v ∈ l, v < 2 ^ nbits) (hnum : numvals ≤ l.length)
    (hfl : flush = true → numvals = l.length) :
    ∀ (fuel : ℕ) (s : RleState),
      EncInv l nbits s → s.rle_pos ≤ numvals →
      (s.rle_run % 2 = 1 → s.rle_pos < numvals) →
      2 * (numvals - s.rle_pos) + (if s.rle_run ≠ 0 then 1 else 0) < fuel →
      ((flush = false →
        EncInv l nbits (rleLoop (fun i => l.getD i 0) numvals nbits flush fuel s) ∧
        (rleLoop (fun i => l.getD i 0) numvals nbits flush fuel s).rle_pos ≤ numvals ∧
        ((rleLoop (fun i => l.getD i 0) numvals nbits flush fuel s).rle_run % 2 = 1 →
          (rleLoop (fun i => l.getD i 0) numvals nbits flush fuel s).rle_pos < numvals)) ∧
       (flush = true →
        (rleLoop (fun i => l.getD i 0) numvals nbits flush fuel s).rle_run = 0 ∧
        (rleLoop (fun i => l.getD i 0) numvals nbits flush fuel s).rle_pos = numvals ∧
        FinalOut l nbits (rleLoop (fun i => l.getD i 0) numvals nbits flush fuel s))) := by
  intro fuel
  induction fuel with
  | zero =>
    intro s _ _ _ hmeas
    exact absurd hmeas (by omega)
  | succ fuel ih =>
    intro s hinv hpos hoddlt hmeas
    simp only [rleLoop]
    by_cases hc : s.rle_pos < numvals ∨ (flush = true ∧ s.rle_run ≠ 0)
    · rw [if_pos hc]
      obtain ⟨hcase, hmd⟩ := rleStep_spec l nbits numvals flush s hnb1 hnb16 hvals hnum hfl
        hinv hpos hoddlt hc
      by_cases hb : (rleStep (fun i => l.getD i 0) numvals nbits flush s).2 = true
      · rw [if_pos hb]
        rcases hcase with ⟨hE, hple, holt, _⟩ | ⟨hfl', _, hrun0, hposn, hFO⟩
        · exact ih _ hE hple holt (by have := hmd hb; omega)
        · have hstay : rleLoop (fun i => l.getD i 0) numvals nbits flush fuel
              (rleStep (fun i => l.getD i 0) numvals nbits flush s).1 =
              (rleStep (fun i => l.getD i 0) numvals nbits flush s).1 := by
            cases fuel with
            | zero => rfl
            | succ n =>
              simp only [rleLoop]
              rw [if_neg (show
                ¬((rleStep (fun i => l.getD i 0) numvals nbits flush s).1.rle_pos < numvals ∨
                  (flush = true ∧
                    (rleStep (fun i => l.getD i 0) numvals nbits flush s).1.rle_run ≠ 0)) by
                rintro (h | ⟨_, hr⟩)
                · omega
                · exact hr hrun0)]
          rw [hstay]
          exact ⟨fun hff => absurd hfl' (by rw [hff]; simp),
            fun _ => ⟨hrun0, hposn, hFO⟩⟩
      · rw [if_neg hb]
        have hb' : (rleStep (fun i => l.getD i 0) numvals nbits flush s).2 = false := by
          revert hb
          cases (rleStep (fun i => l.getD i 0) numvals nbits flush s).2 <;> simp
        rcases hcase with ⟨hE, hple, holt, hbk⟩ | ⟨_, htr, _⟩
        · refine ⟨fun _ => ⟨hE, hple, holt⟩, fun hft => ?_⟩
          exact absurd (hbk hb') (by rw [hft]; simp)
        · exact absurd htr (by rw [hb']; simp)
    · rw [if_neg hc]
      push_neg at hc
      refine ⟨fun _ => ⟨hinv, hpos, hoddlt⟩, fun hft => ?_⟩
      have hrz : s.rle_run = 0 := hc.2 hft
      have hpn : s.rle_pos = numvals := by
        have := hc.1
        omega
      exact ⟨hrz, hpn, EncInv_final l nbits s hinv hrz (by rw [hpn]; exact hfl hft)⟩

lemma rleChunks_stop (vals : ℕ → ℕ) (total nbits fuel numvals : ℕ) (s : RleState)
    (h : ¬numvals < total) :
    rleChunks vals total nbits fuel numvals s = s := by
  cases fuel with
  | zero => rfl
  | succ n =>
    simp only [rleChunks]
    rw [if_neg h]

/-- The batch driver: starting anywhere strictly before the end with the
invariant, enough 128-value batches reach the flushed final output. -/
lemma rleChunks_spec (l : List ℕ) (nbits : ℕ)
    (hnb1 : 1 ≤ nbits) (hnb16 : nbits ≤ 16) (hvals : ∀ v ∈ l, v < 2 ^ nbits) :
    ∀ (fuel numvals : ℕ) (s : RleState),
      numvals ≤ l.length → numvals < l.length →
      l.length - numvals ≤ 128 * fuel →
      EncInv l nbits s → s.rle_pos ≤ numvals →
      (s.rle_run % 2 = 1 → s.rle_pos < numvals) →
      FinalOut l nbits (rleChunks (fun i => l.getD i 0) l.length nbits fuel numvals s) := by
  intro fuel
  induction fuel with
  | zero =>
    intro numvals s _ h2 h3 _ _ _
    exact absurd h3 (by omega)
  | succ fuel ih =>
    intro numvals s h1 h2 h3 hinv hpos hoddlt
    simp only [rleChunks]
    rw [if_pos h2]
    have hE := rleLoop_spec l nbits (numvals + min (l.length - numvals) 128)
      (decide (numvals + min (l.length - numvals) 128 = l.length)) hnb1 hnb16 hvals
      (by omega) (fun h => of_decide_eq_true h)
      (2 * (numvals + min (l.length - numvals) 128) + 4) s
      hinv (by omega) (fun h => by have := hoddlt h; omega) (by split <;> omega)
    rw [show RleEncode (fun i => l.getD i 0) (numvals + min (l.length - numvals) 128) nbits
        (decide (numvals + min (l.length - numvals) 128 = l.length)) s =
        rleLoop (fun i => l.getD i 0) (numvals + min (l.length - numvals) 128) nbits
        (decide (numvals + min (l.length - numvals) 128 = l.length))
        (2 * (numvals + min (l.length - numvals) 128) + 4) s from rfl]
    by_cases hend : numvals + min (l.length - numvals) 128 = l.length
    · have hdt : decide (numvals + min (l.length - numvals) 128 = l.length) = true :=
        decide_eq_true hend
      rw [hdt] at hE ⊢
      obtain ⟨hr0, hpn, hFO⟩ := hE.2 rfl
      rw [rleChunks_stop _ _ _ _ _ _ (by omega)]
      exact hFO
    · have hdf : decide (numvals + min (l.length - numvals) 128 = l.length) = false :=
        decide_eq_false hend
      rw [hdf] at hE ⊢
      obtain ⟨hE', hple, holt⟩ := hE.1 rfl
      exact ih (numvals + min (l.length - numvals) 128) _ (by omega) (by omega) (by omega)
        hE' hple holt

/-- The full encoder, from the initial state, lands in the final-output
shape. -/
lemma encodeRle_final (l : List ℕ) (nbits : ℕ)
    (hnb1 : 1 ≤ nbits) (hnb16 : nbits ≤ 16) (hvals : ∀ v ∈ l, v < 2 ^ nbits) :
    FinalOut l nbits (encodeRle l nbits) := by
  have hinit : EncInv l nbits ⟨0, 0, 0, [], []⟩ := by
    have hpend0 : pending ⟨0, 0, 0, [], []⟩ = (0 : ℕ) := rfl
    refine ⟨[], rfl, by simp, by simp [hpend0], by simp, by simp [hpend0], ?_, ?_⟩
    · intro h
      exact absurd h (by norm_num)
    · intro _
      refine ⟨rfl, ?_⟩
      intro i h1 h2
      exact absurd h2 (by omega)
  rw [encodeRle]
  rcases Nat.eq_zero_or_pos l.length with hlen | hlen
  · rw [rleChunks_stop _ _ _ _ _ _ (by omega)]
    have hnil : l = [] := List.length_eq_zero.mp hlen
    refine ⟨[], 0, rfl, by simp, ?_, by omega⟩
    simp [hnil]
  · exact rleChunks_spec l nbits hnb1 hnb16 hvals (l.length / 128 + 2) 0 ⟨0, 0, 0, [], []⟩
      (by omega) (by omega) (by omega) hinit (le_refl 0) (fun h => absurd h (by norm_num))

end Rle

namespace Rle

/-- C3: decoding the hybrid-RLE stream produced by the batch-driven
`RleEncode` (batches of up to 128 values, with `flush` set exactly on the
final batch) reproduces exactly the original bounded-width input
sequence, for every width `nbits` in 1..16 — including runs spanning
batches and runs ending on batch boundaries; beyond the input the decoded
list carries only the zero padding of the final literal group (fewer than
8 zeros, with no decoded meaning). -/
theorem C3_rle_round_trip (l : List ℕ) (nbits : ℕ)
    (h1 : 1 ≤ nbits) (h16 : nbits ≤ 16) (hvals : ∀ v ∈ l, v < 2 ^ nbits) :
    ∃ ds : List ℕ, rleDecode nbits (encodeRle l nbits).out = some ds ∧
      ds.take l.length = l ∧
      ∃ pad : ℕ, pad < 8 ∧ ds.drop l.length = List.replicate pad 0 := by
  obtain ⟨runs, pad, hout, hwf, hden, hpad⟩ := encodeRle_final l nbits h1 h16 hvals
  refine ⟨l ++ List.replicate pad 0, ?_, ?_, pad, hpad, ?_⟩
  · rw [rleDecode, hout, rleParse_serialize nbits h1 h16 runs hwf _ (le_refl _)]
    simp [hden]
  · exact List.take_left l (List.replicate pad 0)
  · exact List.drop_left l (List.replicate pad 0)

/-- C3 witness at a concrete input. -/
theorem C3_rle_round_trip_witness :
    (1 ≤ 2 ∧ 2 ≤ 16 ∧ ∀ v ∈ [3, 3, 3, 3, 1, 2], v < 2 ^ 2) ∧
    (∃ ds : List ℕ, rleDecode 2 (encodeRle [3, 3, 3, 3, 1, 2] 2).out = some ds ∧
      ds.take [3, 3, 3, 3, 1, 2].length = [3, 3, 3, 3, 1, 2] ∧
      ∃ pad : ℕ, pad < 8 ∧ ds.drop [3, 3, 3, 3, 1, 2].length = List.replicate pad 0) :=
  ⟨⟨by norm_num, by norm_num, by decide⟩,
    C3_rle_round_trip [3, 3, 3, 3, 1, 2] 2 (by norm_num) (by norm_num) (by decide)⟩

/-- C10: the encoder's output stream parses back into runs in which every
bit-packed literal run has at most `0x3f` groups of 8 values — so its
one-byte header `2 * groups + 1` is at most `0x7f` and the run covers at
most 504 values. -/
theorem C10_literal_header_bound (l : List ℕ) (nbits : ℕ)
    (h1 : 1 ≤ nbits) (h16 : nbits ≤ 16) (hvals : ∀ v ∈ l, v < 2 ^ nbits) :
    ∃ runs : List RleRun,
      (encodeRle l nbits).out = runs.flatMap (serializeRun nbits) ∧
      rleParse nbits (encodeRle l nbits).out.length (encodeRle l nbits).out = some runs ∧
      ∀ g vs, RleRun.lit g vs ∈ runs →
        g ≤ 0x3f ∧ 2 * g + 1 ≤ 0x7f ∧ vs.length = 8 * g ∧ vs.length ≤ 504 ∧
        serializeRun nbits (.lit g vs) = (2 * g + 1) :: PackLiterals nbits vs := by
  obtain ⟨runs, pad, hout, hwf, hden, hpad⟩ := encodeRle_final l nbits h1 h16 hvals
  refine ⟨runs, hout, ?_, ?_⟩
  · rw [hout]
    exact rleParse_serialize nbits h1 h16 runs hwf _ (le_refl _)
  · intro g vs hmem
    have hw := hwf _ hmem
    obtain ⟨hlen, hg, _⟩ := hw
    exact ⟨hg, by omega, hlen, by omega, rfl⟩

/-- C10 witness at a concrete input. -/
theorem C10_literal_header_bound_witness :
    (1 ≤ 3 ∧ 3 ≤ 16 ∧ ∀ v ∈ [5, 4, 3, 2, 1, 0, 7, 6, 5], v < 2 ^ 3) ∧
    (∃ runs : List RleRun,
      (encodeRle [5, 4, 3, 2, 1, 0, 7, 6, 5] 3).out = runs.flatMap (serializeRun 3) ∧
      rleParse 3 (encodeRle [5, 4, 3, 2, 1, 0, 7, 6, 5] 3).out.length
        (encodeRle [5, 4, 3, 2, 1, 0, 7, 6, 5] 3).out = some runs ∧
      ∀ g vs, RleRun.lit g vs ∈ runs →
        g ≤ 0x3f ∧ 2 * g + 1 ≤ 0x7f ∧ vs.length = 8 * g ∧ vs.length ≤ 504 ∧
        serializeRun 3 (.lit g vs) = (2 * g + 1) :: PackLiterals 3 vs) :=
  ⟨⟨by norm_num, by norm_num, by decide⟩,
    C10_literal_header_bound [5, 4, 3, 2, 1, 0, 7, 6, 5] 3 (by norm_num) (by norm_num)
      (by decide)⟩

end Rle

namespace PageEnc

/-- The actual byte size of a dictionary-indexed data page's value stream
(page_enc.cu lines 939-963): one `dict_bits` byte stored at `dst[0]`, then
the batch-driven hybrid-RLE stream of the page's dictionary indices
(`s->rle_out = 1`, then `RleEncode` over the nvals batches). -/
def dictDataSize (indices : List ℕ) (dict_bits : ℕ) : ℕ :=
  1 + (Rle.encodeRle indices dict_bits).out.length

/-- A realistic dictionary-index pattern for a 5000-entry (13-bit)
dictionary: ten cycles of eight distinct indices followed by one repeated
pair. -/
def c5Indices : List ℕ := (List.range 100).map fun i => if i % 10 < 8 then i % 10 + 1 else 0

set_option maxRecDepth 8000 in
/-- C5: the layout pre-pass byte budgets are not conservative.  For a
dictionary chunk with 13-bit indices, `gpuInitPages` reserves
`max_data_size = 1 + 5 + (100 * 13 + 7) / 8 + 100 / 256 = 169` bytes for a
100-value data page, but the value stream `gpuEncodePages` writes for the
index pattern `c5Indices` (in range for the dictionary) takes
`dictDataSize c5Indices 13 = 171` bytes: the per-run overhead of short
literal runs separated by minimal repeat runs exceeds the linear
estimate. -/
theorem C5_data_reserve_exceeded :
    ∃ p ∈ (gpuInitPages
        ⟨100, 100, 0, true, 13, 5000, 20000, 0, false, false, false, 0, 0⟩
        ⟨512 * 1024, 20000, 0⟩ [⟨100, 100, 100, 400, 0, 0⟩]).1,
      p.page_type = PageType.DATA_PAGE ∧
      p.num_values = c5Indices.length ∧
      (∀ v ∈ c5Indices, v < 2 ^ (13 : ℕ)) ∧
      p.max_data_size < dictDataSize c5Indices 13 := by
  decide

end PageEnc
